import Mathlib

/-!
# Verification of the streaming puzzle-selection engine (`app/puzzles.py`)

This file shallowly embeds the selection core of the repository:

* `Puzzle` mirrors the frozen dataclass `Puzzle`.
* The per-theme bounded heaps are embedded faithfully at the level of the
  CPython `heapq` library the source relies on: `siftdownPy`, `siftupLoop`,
  `heappushPy` and `heapreplacePy` transcribe `heapq._siftdown`,
  `heapq._siftup`, `heapq.heappush` and `heapq.heapreplace`, operating on the
  backing array represented as a `List`.
* `selectFlatE` embeds `select_top_per_theme_streaming`;
  `selectStratifiedE` embeds `select_top_per_theme_streaming_stratified`.
  Fallible behaviour (the `IndexError` raised by `heap[0]` on an empty heap
  when the quota is non-positive, and the `ZeroDivisionError` raised by the
  bin-count computation when the bin width is zero) is modelled with `Except`.
* The goodness key `_goodness_key` is a triple of IEEE floats perturbed by a
  SHA-1 based jitter; the selection code only ever *compares* keys, so the
  embedding abstracts the key as a parameter `gkey : Puzzle → κ` into an
  arbitrary linear order, exactly as the selection functions are generic in
  the ordered key values they receive.  The numeric normalisation step of
  `_stable_noise` is embedded separately (`stableNoiseVal`) over `ℚ`,
  taking the four leading hash bytes as an abstract 32-bit value (the SHA-1
  digest itself is computed by the external `hashlib` collaborator).
* The binary attribute classifier `starts_white` replays a chess move via the
  external `chess` library; the embedding keeps the control flow of
  `starts_white` and abstracts the two library calls as oracles
  (`pushTurn` : turn after pushing the first move, `none` when the push
  raises; `fenTurn` : side to move in the FEN).
-/

instance exceptDecEq {ε α : Type} [DecidableEq ε] [DecidableEq α] :
    DecidableEq (Except ε α) := fun x y =>
  match x, y with
  | .ok a, .ok b =>
    if h : a = b then .isTrue (by rw [h]) else .isFalse (by simp [h])
  | .error a, .error b =>
    if h : a = b then .isTrue (by rw [h]) else .isFalse (by simp [h])
  | .ok _, .error _ => .isFalse (by simp)
  | .error _, .ok _ => .isFalse (by simp)

/-- Mirrors the frozen dataclass `Puzzle` of `app/puzzles.py`. -/
structure Puzzle where
  puzzle_id : String
  fen : String
  moves_uci : List String
  rating : Int
  rating_deviation : Int
  popularity : Int
  num_plays : Int
  themes : List String
  game_url : String
  opening_tags : List String
deriving DecidableEq, Repr

/-- `Puzzle.primary_themes`: the themes with the empty string dropped
(`tuple(t for t in self.themes if t)`). -/
def primaryThemes (p : Puzzle) : List String :=
  p.themes.filter (fun t => !t.isEmpty)

/-- A heap entry `(key, next(tie_counter), puzzle)` as built by both
selection functions. -/
structure Entry (κ : Type) where
  key : κ
  seq : Nat
  puzzle : Puzzle
deriving DecidableEq, Repr

variable {κ : Type} [LinearOrder κ]

/-- The order in which Python compares two heap entries: lexicographic on
`(key, seq)`.  The third tuple component (the puzzle) is never reached
because the sequence numbers produced by `itertools.count()` are distinct. -/
def entLt (a b : Entry κ) : Prop :=
  a.key < b.key ∨ (a.key = b.key ∧ a.seq < b.seq)

instance entLtDecidable (a b : Entry κ) : Decidable (entLt a b) := by
  unfold entLt; infer_instance

/-- The reflexive closure of `entLt` on the compared components: the order in
which an entry is allowed to sit above another in the min-heap. -/
def entLe (a b : Entry κ) : Prop :=
  a.key < b.key ∨ (a.key = b.key ∧ a.seq ≤ b.seq)

/-- The parent/child ordering invariant of the zero-based array layout used
by `heapq`: every child is at least its parent. -/
def HeapInv (h : List (Entry κ)) : Prop :=
  ∀ (i j : Nat) (a b : Entry κ), (j = 2 * i + 1 ∨ j = 2 * i + 2) →
    h[i]? = some a → h[j]? = some b → entLe a b

/-- Recursion core of `heapq._siftdown`; the fuel argument only serves
structural termination, any `fuel ≥ pos` computes the untruncated walk
because the hole index strictly decreases at every step. -/
def siftdownAux (heap : List (Entry κ)) (item : Entry κ) (pos : Nat) :
    Nat → List (Entry κ)
  | 0 => heap.set pos item
  | fuel + 1 =>
    if pos = 0 then heap.set 0 item
    else
      match heap[(pos - 1) / 2]? with
      | none => heap.set pos item
      | some parent =>
        if entLt item parent then
          siftdownAux (heap.set pos parent) item ((pos - 1) / 2) fuel
        else heap.set pos item

/-- `heapq._siftdown(heap, 0, pos)`: bubble `item` (conceptually sitting at
index `pos`) up toward the root while it is strictly smaller than its
parent. -/
def siftdownPy (heap : List (Entry κ)) (item : Entry κ) (pos : Nat) :
    List (Entry κ) :=
  siftdownAux heap item pos pos

/-- `heapq.heappush`: append the item and sift it up. -/
def heappushPy (heap : List (Entry κ)) (item : Entry κ) : List (Entry κ) :=
  siftdownPy (heap ++ [item]) item heap.length

/-- The child-selection step of `heapq._siftup`: the left child
`2*pos + 1`, unless a right child exists and the left one is not strictly
smaller, in which case the right child. -/
def siftChild (heap : List (Entry κ)) (pos : Nat) : Nat :=
  if 2 * pos + 2 < heap.length then
    match heap[2 * pos + 1]?, heap[2 * pos + 2]? with
    | some l, some r => if entLt l r then 2 * pos + 1 else 2 * pos + 2
    | _, _ => 2 * pos + 1
  else 2 * pos + 1

/-- The descending walk of `heapq._siftup`: repeatedly move the smaller child
up into the hole at `pos` until the hole reaches a position with no child,
returning the shifted array together with the final hole position.  The fuel
argument only serves termination; `fuel = heap.length` always suffices
because the hole index strictly increases. -/
def siftupLoop (heap : List (Entry κ)) (pos : Nat) :
    Nat → List (Entry κ) × Nat
  | 0 => (heap, pos)
  | fuel + 1 =>
    if 2 * pos + 1 < heap.length then
      match heap[siftChild heap pos]? with
      | none => (heap, pos)
      | some c => siftupLoop (heap.set pos c) (siftChild heap pos) fuel
    else (heap, pos)

/-- `heapq.heapreplace`: overwrite the root with `item`, walk the smaller
children up to a leaf (`_siftup`), place `item` in the final hole and bubble
it up (`_siftdown`). -/
def heapreplacePy (heap : List (Entry κ)) (item : Entry κ) : List (Entry κ) :=
  siftdownPy
    ((siftupLoop (heap.set 0 item) 0 heap.length).1.set
      (siftupLoop (heap.set 0 item) 0 heap.length).2 item)
    item (siftupLoop (heap.set 0 item) 0 heap.length).2

/-- The comparator of the drain step
`sorted(heap, key=lambda e: e[0], reverse=True)`: `a` may come before `b`
precisely when `a`'s key is at least `b`'s key.  Python's sort is stable, so
the drained list is the unique stable descending-by-key ordering of the
backing array; `List.insertionSort` with this relation computes exactly
that list. -/
def keyGE (a b : Entry κ) : Prop :=
  b.key ≤ a.key

instance keyGEDecidable (a b : Entry κ) : Decidable (keyGE a b) := by
  unfold keyGE; infer_instance

instance keyGETotal : IsTotal (Entry κ) keyGE :=
  ⟨fun a b => (le_total b.key a.key).imp id id⟩

instance keyGETrans : IsTrans (Entry κ) keyGE :=
  ⟨fun _ _ _ h1 h2 => le_trans h2 h1⟩

/-- `sorted(heap, key=lambda e: e[0], reverse=True)`. -/
def drainDesc (heap : List (Entry κ)) : List (Entry κ) :=
  heap.insertionSort keyGE

/-- One offer into a bounded heap (the body shared by lines 255-260 and
314-318 of `app/puzzles.py`): push while below capacity, otherwise compare
the incoming key against `heap[0][0]` and replace on a strictly greater key.
Reading `heap[0]` of an empty heap raises `IndexError` in Python; that is the
only failure path. -/
def offerE (cap : Int) (heap : List (Entry κ)) (e : Entry κ) :
    Except String (List (Entry κ)) :=
  if (heap.length : Int) < cap then .ok (heappushPy heap e)
  else
    match heap.head? with
    | none => .error "IndexError"
    | some m => if m.key < e.key then .ok (heapreplacePy heap e) else .ok heap

/-- Membership test against the optional `include_themes` allow-list
(`include_set is None or theme in include_set`). -/
def includeOk (includeThemes : Option (List String)) (theme : String) : Bool :=
  match includeThemes with
  | none => true
  | some l => l.contains theme

/-- Look a key up in an insertion-ordered association list, with default. -/
def getAssoc [DecidableEq β] (l : List (β × α)) (k : β) (d : α) : α :=
  match l.find? (fun kv => kv.1 = k) with
  | none => d
  | some kv => kv.2

/-- Update a key in an insertion-ordered association list, appending the key
at the end on first encounter (the order Python dicts preserve). -/
def setAssoc [DecidableEq β] (l : List (β × α)) (k : β) (v : α) :
    List (β × α) :=
  match l with
  | [] => [(k, v)]
  | kv :: rest =>
    if kv.1 = k then (k, v) :: rest else kv :: setAssoc rest k v

/-- State of the single pass of `select_top_per_theme_streaming`:
the per-theme heap dict and the `itertools.count()` tie counter. -/
structure FlatState (κ : Type) where
  heaps : List (String × List (Entry κ))
  counter : Nat

/-- One iteration of the `for theme in puzzle.primary_themes` loop of
`select_top_per_theme_streaming`: skip themes outside the allow-list,
otherwise build the entry `(key, next(tie_counter), puzzle)` and offer it
into that theme's heap. -/
def offerThemeFlat (gkey : Puzzle → κ) (topN : Int)
    (includeThemes : Option (List String)) (p : Puzzle) (st : FlatState κ)
    (theme : String) : Except String (FlatState κ) :=
  if includeOk includeThemes theme then
    (offerE topN (getAssoc st.heaps theme [])
        ⟨gkey p, st.counter, p⟩).map
      (fun h1 => ⟨setAssoc st.heaps theme h1, st.counter + 1⟩)
  else .ok st

/-- The loop body of `select_top_per_theme_streaming` for one puzzle. -/
def offerPuzzleFlat (gkey : Puzzle → κ) (topN : Int)
    (includeThemes : Option (List String)) (st : FlatState κ) (p : Puzzle) :
    Except String (FlatState κ) :=
  if (primaryThemes p).isEmpty then .ok st
  else (primaryThemes p).foldlM (offerThemeFlat gkey topN includeThemes p) st

/-- The post-pass state of `select_top_per_theme_streaming`. -/
def flatHeapsE (gkey : Puzzle → κ) (topN : Int)
    (includeThemes : Option (List String)) (puzzles : List Puzzle) :
    Except String (FlatState κ) :=
  puzzles.foldlM (offerPuzzleFlat gkey topN includeThemes) ⟨[], 0⟩

/-- `select_top_per_theme_streaming`: stream the puzzles through the
per-theme bounded heaps, then flatten each theme's heap best-first. -/
def selectFlatE (gkey : Puzzle → κ) (topN : Int)
    (includeThemes : Option (List String)) (puzzles : List Puzzle) :
    Except String (List (String × Puzzle)) :=
  (flatHeapsE gkey topN includeThemes puzzles).map
    (fun st =>
      st.heaps.foldl
        (fun acc th =>
          acc ++ (drainDesc th.2).map (fun e => (th.1, e.puzzle)))
        [])

/-- `_rating_bin_index`: clamp below-range ratings to bin 0 and above-range
ratings to the last in-range bin, else floor-divide the offset by the bin
size (`//` is Python floor division, `Int.fdiv`).  The function is only
reached when the bin-size zero check of the caller has already passed. -/
def ratingBinIndex (rating lo hi w : Int) : Int :=
  if rating < lo then 0
  else if rating > hi then (hi - lo).fdiv w
  else (rating - lo).fdiv w

/-- `math.ceil(a / b)` for integer `a`, `b` with `b ≠ 0`: the ceiling of the
exact quotient, computed as `-((-a) // b)` with `//` rounding toward minus
infinity (`Int.fdiv`).  The source divides IEEE doubles, which agrees with
the exact quotient at every magnitude the rating/quota configuration space
can reach. -/
def ceilDiv (a b : Int) : Int :=
  -((-a).fdiv b)

/-- `num_bins = max(1, math.ceil((max_rating - min_rating + 1) / bin_size))`,
evaluated once at setup; Python true division by a zero bin size raises
`ZeroDivisionError` there, before any record is read. -/
def numBinsE (lo hi w : Int) : Except String Int :=
  if w = 0 then .error "ZeroDivisionError"
  else .ok (max 1 (ceilDiv (hi - lo + 1) w))

/-- `per_bin_quota = max(1, math.ceil(top_n_per_theme / num_bins))`. -/
def perBinQuota (topN nb : Int) : Int :=
  max 1 (ceilDiv topN nb)

/-- State of the single pass of `select_top_per_theme_streaming_stratified`:
`theme -> bin_index -> heap` plus the tie counter. -/
structure StratState (κ : Type) where
  heaps : List (String × List (Int × List (Entry κ)))
  counter : Nat

/-- One iteration of the stratified theme loop: offer the already-built
entry into the heap of this theme's bin. -/
def offerThemeStrat (quota : Int) (includeThemes : Option (List String))
    (e : Entry κ) (binIndex : Int)
    (hs : List (String × List (Int × List (Entry κ)))) (theme : String) :
    Except String (List (String × List (Int × List (Entry κ)))) :=
  if includeOk includeThemes theme then
    (offerE quota (getAssoc (getAssoc hs theme []) binIndex []) e).map
      (fun h1 =>
        setAssoc hs theme (setAssoc (getAssoc hs theme []) binIndex h1))
  else .ok hs

/-- The loop body of `select_top_per_theme_streaming_stratified` for one
puzzle: bin index, key and entry are computed once per puzzle (one tie value
per record), then the entry is offered into every allow-listed theme's heap
for that bin. -/
def offerPuzzleStrat (gkey : Puzzle → κ) (quota lo hi w : Int)
    (includeThemes : Option (List String)) (st : StratState κ) (p : Puzzle) :
    Except String (StratState κ) :=
  if (primaryThemes p).isEmpty then .ok st
  else
    ((primaryThemes p).foldlM
      (offerThemeStrat quota includeThemes ⟨gkey p, st.counter, p⟩
        (ratingBinIndex p.rating lo hi w))
      st.heaps).map
      (fun hs => ⟨hs, st.counter + 1⟩)

/-- Setup plus the streaming pass of the stratified mode: compute
`num_bins` and `per_bin_quota` (failing at setup on a zero bin width), then
fold the stream through the per-`(theme, bin)` heaps. -/
def stratHeapsE (gkey : Puzzle → κ) (topN lo hi w : Int)
    (includeThemes : Option (List String)) (puzzles : List Puzzle) :
    Except String (Int × Int × StratState κ) :=
  (numBinsE lo hi w).bind
    (fun nb =>
      let quota := perBinQuota topN nb
      (puzzles.foldlM (offerPuzzleStrat gkey quota lo hi w includeThemes)
          ⟨[], 0⟩).map
        (fun st => (nb, quota, st)))

/-- The nested `starts_white` helper: build the board from the FEN, and when
presenting after the opponent's first move try to push that move, silently
keeping the original position when the push raises; report whether White is
to move.  The two `chess`-library effects are abstracted as oracles:
`pushTurn p` is `some turn` (turn after `board.push_uci(p.moves_uci[0])`,
as "White to move?") when the push succeeds and `none` when it raises;
`fenTurn p` is the side to move of the unmodified FEN. -/
def starts_white (presentAfter : Bool) (pushTurn : Puzzle → Option Bool)
    (fenTurn : Puzzle → Bool) (p : Puzzle) : Bool :=
  if presentAfter && !p.moves_uci.isEmpty then
    match pushTurn p with
    | some t => t
    | none => fenTurn p
  else fenTurn p

/-- Lines 340-348: split each drained bin list into the white-start and
black-start buckets, preserving the descending order inside each bucket. -/
def splitByColor (cls : Puzzle → Bool) (bins : List (Int × List (Entry κ))) :
    List (Int × List Puzzle) × List (Int × List Puzzle) :=
  (bins.map (fun b => (b.1, (b.2.map Entry.puzzle).filter (fun p => cls p))),
   bins.map (fun b => (b.1, (b.2.map Entry.puzzle).filter (fun p => !cls p))))

/-- One `for i in range(num_bins)` scan of the balancer: starting from the
rotating cursor, find the first bin whose bucket list is non-empty, pop its
head and advance the cursor past that bin.  `i` counts from 0, the fuel is
`num_bins` (the number of loop iterations of the Python `for`). -/
def scanPop (lists : List (Int × List Puzzle)) (numBins rr : Int) (i : Nat) :
    Nat → Option (Puzzle × List (Int × List Puzzle) × Int)
  | 0 => none
  | r + 1 =>
    let binIndex := (rr + (i : Int)) % numBins
    match getAssoc lists binIndex [] with
    | [] => scanPop lists numBins rr (i + 1) r
    | p :: rest =>
      some (p, setAssoc lists binIndex rest, (binIndex + 1) % numBins)

/-- The `while count_for_theme < top_n_per_theme` balancing loop of lines
355-411: try a pick of the desired colour across the bins, fall back to the
opposite colour, stop when neither scan makes progress; after every
successful pick recompute `desired_white = white_count <= black_count`.
Returns the picks in order, the two colour counts, and whether the fallback
branch was ever taken.  The fuel argument only serves structural
termination: every non-final iteration increments `count`, so
`fuel = topN.toNat + 1` always computes the untruncated loop. -/
def balanceLoop (numBins topN : Int) (bw bb : List (Int × List Puzzle))
    (w b : Int) (desiredWhite : Bool) (rr count : Int) (acc : List Puzzle)
    (fb : Bool) : Nat → List Puzzle × Int × Int × Bool
  | 0 => (acc, w, b, fb)
  | fuel + 1 =>
    if count < topN then
      match scanPop (if desiredWhite then bw else bb) numBins rr 0
          numBins.toNat with
      | some (p, ls, rr2) =>
        let w2 := if desiredWhite then w + 1 else w
        let b2 := if desiredWhite then b else b + 1
        balanceLoop numBins topN (if desiredWhite then ls else bw)
          (if desiredWhite then bb else ls) w2 b2 (decide (w2 ≤ b2)) rr2
          (count + 1) (acc ++ [p]) fb fuel
      | none =>
        match scanPop (if desiredWhite then bb else bw) numBins rr 0
            numBins.toNat with
        | some (p, ls, rr2) =>
          let w2 := if desiredWhite then w else w + 1
          let b2 := if desiredWhite then b + 1 else b
          balanceLoop numBins topN (if desiredWhite then bw else ls)
            (if desiredWhite then ls else bb) w2 b2 (decide (w2 ≤ b2)) rr2
            (count + 1) (acc ++ [p]) true fuel
        | none => (acc, w, b, fb)
    else (acc, w, b, fb)

/-- Post-pass phase of the stratified mode for one theme: drain every bin
heap best-first, split by colour and run the balancing loop. -/
def balanceTheme (nb topN : Int) (cls : Puzzle → Bool)
    (bins : List (Int × List (Entry κ))) : List Puzzle × Int × Int × Bool :=
  let sortedBins := bins.map (fun b => (b.1, drainDesc b.2))
  let split := splitByColor cls sortedBins
  balanceLoop nb topN split.1 split.2 0 0 true 0 0 [] false (topN.toNat + 1)

/-- `select_top_per_theme_streaming_stratified`, with the binary-attribute
classifier passed as a function (the source's nested `starts_white`;
see `starts_white` above for the faithful definition of that helper). -/
def selectStratifiedE (gkey : Puzzle → κ) (topN lo hi w : Int)
    (includeThemes : Option (List String)) (cls : Puzzle → Bool)
    (puzzles : List Puzzle) : Except String (List (String × Puzzle)) :=
  (stratHeapsE gkey topN lo hi w includeThemes puzzles).map
    (fun r =>
      r.2.2.heaps.foldl
        (fun acc th =>
          acc ++ (balanceTheme r.1 topN cls th.2).1.map (fun p => (th.1, p)))
        [])

/-- `select_top_per_theme_streaming_stratified` with its classifier
instantiated to the nested `starts_white` helper over the chess oracles. -/
def selectStratifiedFull (gkey : Puzzle → κ) (topN lo hi w : Int)
    (includeThemes : Option (List String)) (presentAfter : Bool)
    (pushTurn : Puzzle → Option Bool) (fenTurn : Puzzle → Bool)
    (puzzles : List Puzzle) : Except String (List (String × Puzzle)) :=
  selectStratifiedE gkey topN lo hi w includeThemes
    (starts_white presentAfter pushTurn fenTurn) puzzles

/-- The normalisation step of `_stable_noise`: with `val` the integer value
of the first four bytes of `sha1((salt + puzzle_id).encode()).digest()`, the
returned jitter is `val / 0xFFFFFFFF - 0.5`.  The SHA-1 digest is computed
by the external `hashlib` collaborator, so the embedding takes `val` as the
abstract 32-bit hash prefix; the arithmetic `val / 0xFFFFFFFF - 0.5` is
exact in ℚ, and also exact in IEEE binary64 at the extremal inputs `0` and
`0xFFFFFFFF` discussed in the theorems below. -/
def stableNoiseVal (val : Nat) : ℚ :=
  (val : ℚ) / 0xFFFFFFFF - 1 / 2

/-- Top-level names defined by the module `app.puzzles`
(`src/app/puzzles.py`). -/
def puzzlesModuleDefs : List String :=
  ["Puzzle", "GenerationConfig", "_open_text_stream", "CSV_HEADERS",
   "_humanize_theme", "_stable_noise", "iter_puzzles_csv",
   "filter_puzzles_by_rating", "group_puzzles_by_theme", "sort_puzzles",
   "_goodness_key", "select_top_per_theme_streaming", "_rating_bin_index",
   "select_top_per_theme_streaming_stratified", "write_puzzles_to_pgn",
   "write_puzzles_per_theme_to_directory", "summarize_selected",
   "build_puzzles_pipeline", "generate_from_config"]

/-- The names `src/app/main.py` line 8 imports from `app.puzzles`;
resolving them is the first statement executed when `app.main` is
imported, before any command-line argument or record is looked at. -/
def mainImportsFromPuzzles : List String :=
  ["build_puzzles_pipeline", "write_puzzles_per_theme_to_directory",
   "process_all_puzzles_by_theme_streaming"]

/-- The parameter names of `build_puzzles_pipeline`
(`src/app/puzzles.py` lines 650-663). -/
def buildPuzzlesPipelineParams : List String :=
  ["csv_path", "rating_min", "rating_max", "per_theme", "difficulty_center",
   "include_themes", "out_pgn_path", "present_after_opponent_first_move",
   "limit_total", "force_color", "opening_color_tag", "event_prefix"]

/-- The keyword-argument names `main` passes to `build_puzzles_pipeline`
(`src/app/main.py` lines 189-204). -/
def mainPipelineCallKwargs : List String :=
  ["csv_path", "rating_min", "rating_max", "per_theme", "difficulty_center",
   "include_themes", "out_pgn_path", "present_after_opponent_first_move",
   "limit_total", "force_color", "opening_color_tag", "event_prefix",
   "min_popularity", "min_plays"]

/-- Test fixture: a puzzle record with the fields the selection core reads
(identifier, rating, popularity, themes) set explicitly and neutral values
elsewhere. -/
def mkPuzzle (id : String) (rating popularity : Int)
    (themes : List String) : Puzzle :=
  ⟨id, "", ["e2e4"], rating, 80, popularity, 10, themes, "", []⟩

/-- Projection used to state facts about a selection result: the emitted
list on success, the empty list on failure. -/
def okList (x : Except String (List (String × Puzzle))) :
    List (String × Puzzle) :=
  match x with
  | .ok l => l
  | .error _ => []

/-- Well-formedness of the flat per-theme heap dictionary: distinct theme
keys, and every heap satisfies the binary-heap invariant, holds at most
`cap` entries, and stores each entry under the key the scoring function
assigns to its record. -/
def HeapsWF (gkey : Puzzle → κ) (cap : Int)
    (heaps : List (String × List (Entry κ))) : Prop :=
  (heaps.map Prod.fst).Nodup ∧
  ∀ kv ∈ heaps, HeapInv kv.2 ∧ (kv.2.length : Int) ≤ cap ∧
    ∀ e ∈ kv.2, e.key = gkey e.puzzle

/-- Well-formedness of the stratified `theme -> bin -> heap` dictionary. -/
def StratWF (gkey : Puzzle → κ) (quota : Int)
    (heaps : List (String × List (Int × List (Entry κ)))) : Prop :=
  (heaps.map Prod.fst).Nodup ∧
  ∀ kv ∈ heaps, (kv.2.map Prod.fst).Nodup ∧
    ∀ bh ∈ kv.2, HeapInv bh.2 ∧ (bh.2.length : Int) ≤ quota ∧
      ∀ e ∈ bh.2, e.key = gkey e.puzzle

/-! ## Order facts for heap entries -/

theorem entLt_imp_entLe {a b : Entry κ} (h : entLt a b) : entLe a b := by
  rcases h with h | ⟨he, hs⟩
  · exact Or.inl h
  · exact Or.inr ⟨he, hs.le⟩

theorem entLe_refl (a : Entry κ) : entLe a a :=
  Or.inr ⟨rfl, le_refl _⟩

theorem entLe_trans {a b c : Entry κ} (h1 : entLe a b) (h2 : entLe b c) :
    entLe a c := by
  rcases h1 with h1 | ⟨he1, hs1⟩ <;> rcases h2 with h2 | ⟨he2, hs2⟩
  · exact Or.inl (lt_trans h1 h2)
  · exact Or.inl (he2 ▸ h1)
  · refine Or.inl ?_
    rw [he1]
    exact h2
  · exact Or.inr ⟨he1.trans he2, hs1.trans hs2⟩

theorem not_entLt_iff {a b : Entry κ} : ¬ entLt a b ↔ entLe b a := by
  unfold entLt entLe
  constructor
  · intro h
    push_neg at h
    obtain ⟨h1, h2⟩ := h
    rcases lt_or_eq_of_le h1 with hlt | heq
    · exact Or.inl hlt
    · exact Or.inr ⟨heq, h2 heq.symm⟩
  · intro h hlt
    rcases h with h | ⟨he, hs⟩ <;> rcases hlt with h2 | ⟨he2, hs2⟩
    · exact absurd h2 (asymm h)
    · exact absurd he2 (ne_of_gt h)
    · rw [he] at h2
      exact lt_irrefl _ h2
    · exact absurd hs2 (not_lt.mpr hs)

theorem entLe_key {a b : Entry κ} (h : entLe a b) : a.key ≤ b.key := by
  rcases h with h | ⟨he, _⟩
  · exact h.le
  · exact he.le

/-! ## Permutation helpers for array updates -/

theorem cons_get_set_perm {α : Type} (t : List α) (k : Nat) (hk : k < t.length)
    (a : α) : ((t.get ⟨k, hk⟩) :: t.set k a).Perm (a :: t) := by
  induction t generalizing k with
  | nil => exact absurd hk (Nat.not_lt_zero k)
  | cons b s ih =>
    cases k with
    | zero => exact List.Perm.swap a b s
    | succ k =>
      have hk2 : k < s.length := by simpa using hk
      have h1 : ((b :: s).get ⟨k + 1, hk⟩) :: (b :: s).set (k + 1) a
          = (s.get ⟨k, hk2⟩) :: b :: s.set k a := rfl
      rw [h1]
      exact (List.Perm.swap b _ _).trans
        (((ih k hk2).cons b).trans (List.Perm.swap a b s))

theorem cons_set_comm {α : Type} (t : List α) (k : Nat) (hk : k < t.length)
    (x a : α) : (x :: t.set k a).Perm (a :: t.set k x) := by
  induction t generalizing k with
  | nil => exact absurd hk (Nat.not_lt_zero k)
  | cons b s ih =>
    cases k with
    | zero => exact List.Perm.swap a x s
    | succ k =>
      have hk2 : k < s.length := by simpa using hk
      have h1 : (x :: (b :: s).set (k + 1) a) = x :: b :: s.set k a := rfl
      have h2 : (a :: (b :: s).set (k + 1) x) = a :: b :: s.set k x := rfl
      rw [h1, h2]
      exact (List.Perm.swap b x _).trans
        (((ih k hk2).cons b).trans (List.Perm.swap a b _))

/-- Moving the value at the larger index `j` into the hole at `i` and then
writing `x` at `j` permutes to simply writing `x` at `i`. -/
theorem set_get_set_perm {α : Type} (l : List α) (i j : Nat)
    (hi : i < l.length) (hj : j < l.length) (hij : i < j) (x : α) :
    ((l.set i (l.get ⟨j, hj⟩)).set j x).Perm (l.set i x) := by
  induction l generalizing i j with
  | nil => exact absurd hi (Nat.not_lt_zero i)
  | cons a t ih =>
    cases i with
    | zero =>
      cases j with
      | zero => omega
      | succ k =>
        have hk : k < t.length := by simpa using hj
        simpa using cons_get_set_perm t k hk x
    | succ i2 =>
      cases j with
      | zero => omega
      | succ j2 =>
        have hi2 : i2 < t.length := by simpa using hi
        have hj2 : j2 < t.length := by simpa using hj
        simpa using (ih i2 j2 hi2 hj2 (by omega)).cons a

/-- Moving the value at the smaller index `i` into the hole at `j` and then
writing `x` at `i` permutes to simply writing `x` at `j`. -/
theorem set_get_set_perm2 {α : Type} (l : List α) (i j : Nat)
    (hi : i < l.length) (hj : j < l.length) (hij : i < j) (x : α) :
    ((l.set j (l.get ⟨i, hi⟩)).set i x).Perm (l.set j x) := by
  induction l generalizing i j with
  | nil => exact absurd hi (Nat.not_lt_zero i)
  | cons a t ih =>
    cases i with
    | zero =>
      cases j with
      | zero => omega
      | succ k =>
        have hk : k < t.length := by simpa using hj
        simpa using cons_set_comm t k hk x a
    | succ i2 =>
      cases j with
      | zero => omega
      | succ j2 =>
        have hi2 : i2 < t.length := by simpa using hi
        have hj2 : j2 < t.length := by simpa using hj
        simpa using (ih i2 j2 hi2 hj2 (by omega)).cons a

theorem set_append_length {α : Type} (l : List α) (a x : α) :
    (l ++ [a]).set l.length x = l ++ [x] := by
  induction l with
  | nil => rfl
  | cons b t ih =>
    show b :: ((t ++ [a]).set t.length x) = b :: (t ++ [x])
    rw [ih]

/-! ## The root of a valid heap is minimal -/

theorem heapInv_root_min {h : List (Entry κ)} (hinv : HeapInv h) (j : Nat)
    (a b : Entry κ) (ha : h[0]? = some a) (hb : h[j]? = some b) :
    entLe a b := by
  induction j using Nat.strong_induction_on generalizing b with
  | _ j ih =>
    rcases Nat.eq_zero_or_pos j with rfl | hjpos
    · rw [ha] at hb
      obtain rfl := Option.some.inj hb
      exact entLe_refl _
    · have hpar : j = 2 * ((j - 1) / 2) + 1 ∨ j = 2 * ((j - 1) / 2) + 2 := by
        omega
      have hplt : (j - 1) / 2 < j := by omega
      have hjlen : j < h.length := (List.getElem?_eq_some.mp hb).1
      have hplen : (j - 1) / 2 < h.length := lt_trans hplt hjlen
      have hc : h[(j - 1) / 2]? = some (h.get ⟨(j - 1) / 2, hplen⟩) :=
        List.getElem?_eq_getElem hplen
      exact entLe_trans (ih _ hplt _ hc) (hinv _ _ _ b hpar hc hb)

/-- For a positive divisor, `ceilDiv` is the mathematical ceiling of the
exact quotient. -/
theorem ceilDiv_eq_ceil (a b : Int) (hb : 0 < b) :
    ceilDiv a b = ⌈((a : ℚ) / (b : ℚ))⌉ := by
  have hbn : ((b.toNat : ℤ) : ℚ) = (b : ℚ) := by
    norm_cast
    exact Int.toNat_of_nonneg hb.le
  have h2 : ⌊((-a : ℤ) : ℚ) / (b : ℚ)⌋ = (-a) / b := by
    rw [← hbn]
    rw [show (((b.toNat : ℤ) : ℚ)) = ((b.toNat : ℕ) : ℚ) by norm_cast]
    rw [Rat.floor_intCast_div_natCast (-a) b.toNat]
    rw [Int.toNat_of_nonneg hb.le]
  have hceil : ⌈((a : ℚ) / (b : ℚ))⌉ = -⌊(-((a : ℚ) / (b : ℚ)))⌋ := by
    rw [Int.floor_neg]
    ring
  unfold ceilDiv
  rw [Int.fdiv_eq_ediv _ hb.le, hceil]
  congr 1
  rw [← h2]
  congr 1
  push_cast
  ring

/-! ## Specification of the heapq sift operations -/

theorem siftdownAux_spec (fuel : Nat) :
    ∀ (heap : List (Entry κ)) (item : Entry κ) (pos : Nat),
      pos < heap.length → pos ≤ fuel →
      (∀ (i j : Nat) (a b : Entry κ), (j = 2 * i + 1 ∨ j = 2 * i + 2) →
        j ≠ pos → (heap.set pos item)[i]? = some a →
        (heap.set pos item)[j]? = some b → entLe a b) →
      (∀ (c : Nat) (a b : Entry κ), pos ≠ 0 →
        (c = 2 * pos + 1 ∨ c = 2 * pos + 2) →
        (heap.set pos item)[(pos - 1) / 2]? = some a →
        (heap.set pos item)[c]? = some b → entLe a b) →
      HeapInv (siftdownAux heap item pos fuel) ∧
      (siftdownAux heap item pos fuel).Perm (heap.set pos item) := by
  induction fuel with
  | zero =>
    intro heap item pos hpos hfuel ha _
    have hp0 : pos = 0 := by omega
    subst hp0
    refine ⟨?_, List.Perm.refl _⟩
    intro i j a b hij hia hjb
    exact ha i j a b hij (by omega) hia hjb
  | succ fuel ih =>
    intro heap item pos hpos hfuel ha hb
    by_cases hp0 : pos = 0
    · subst hp0
      have hres : siftdownAux heap item 0 (fuel + 1) = heap.set 0 item := by
        simp [siftdownAux]
      rw [hres]
      refine ⟨?_, List.Perm.refl _⟩
      intro i j a b hij hia hjb
      exact ha i j a b hij (by omega) hia hjb
    · have hplen : (pos - 1) / 2 < heap.length := by omega
      have hppne : (pos - 1) / 2 ≠ pos := by omega
      have hget : heap[(pos - 1) / 2]? =
          some (heap.get ⟨(pos - 1) / 2, hplen⟩) :=
        List.getElem?_eq_getElem hplen
      have hstep : siftdownAux heap item pos (fuel + 1) =
          (if entLt item (heap.get ⟨(pos - 1) / 2, hplen⟩) then
            siftdownAux (heap.set pos (heap.get ⟨(pos - 1) / 2, hplen⟩)) item
              ((pos - 1) / 2) fuel
          else heap.set pos item) := by
        rw [siftdownAux, if_neg hp0, hget]
      -- shorthand facts about the virtual arrays
      have hvpos : (heap.set pos item)[pos]? = some item :=
        List.getElem?_set_self hpos
      have hvother : ∀ n, n ≠ pos →
          (heap.set pos item)[n]? = heap[n]? :=
        fun n hn => List.getElem?_set_ne (Ne.symm hn)
      have hvpp : (heap.set pos item)[(pos - 1) / 2]? =
          some (heap.get ⟨(pos - 1) / 2, hplen⟩) := by
        rw [hvother _ hppne]
        exact hget
      rw [hstep]
      by_cases hlt : entLt item (heap.get ⟨(pos - 1) / 2, hplen⟩)
      · rw [if_pos hlt]
        set parent := heap.get ⟨(pos - 1) / 2, hplen⟩ with hpdef
        have hv2pp : ((heap.set pos parent).set
            ((pos - 1) / 2) item)[(pos - 1) / 2]? = some item :=
          List.getElem?_set_self (by simpa using hplen)
        have hv2pos : ((heap.set pos parent).set
            ((pos - 1) / 2) item)[pos]? = some parent := by
          rw [List.getElem?_set_ne hppne, List.getElem?_set_self hpos]
        have hv2other : ∀ n, n ≠ (pos - 1) / 2 → n ≠ pos →
            ((heap.set pos parent).set ((pos - 1) / 2) item)[n]? =
            heap[n]? := by
          intro n h1 h2
          rw [List.getElem?_set_ne (Ne.symm h1),
            List.getElem?_set_ne (Ne.symm h2)]
        have ha2 : ∀ (i j : Nat) (a b : Entry κ),
            (j = 2 * i + 1 ∨ j = 2 * i + 2) → j ≠ (pos - 1) / 2 →
            ((heap.set pos parent).set ((pos - 1) / 2) item)[i]? = some a →
            ((heap.set pos parent).set ((pos - 1) / 2) item)[j]? = some b →
            entLe a b := by
          intro i j a b hij hjne hia hjb
          by_cases hjpos : j = pos
          · have hieq : i = (pos - 1) / 2 := by omega
            rw [hieq, hv2pp] at hia
            rw [hjpos, hv2pos] at hjb
            obtain rfl := Option.some.inj hia
            obtain rfl := Option.some.inj hjb
            exact entLt_imp_entLe hlt
          · by_cases hipos : i = pos
            · rw [hipos, hv2pos] at hia
              obtain rfl := Option.some.inj hia
              rw [hv2other j hjne hjpos] at hjb
              refine hb j parent b hp0 ?_ hvpp ?_
              · rw [hipos] at hij
                exact hij
              · rw [hvother j hjpos]
                exact hjb
            · by_cases hipp : i = (pos - 1) / 2
              · rw [hipp, hv2pp] at hia
                obtain rfl := Option.some.inj hia
                rw [hv2other j hjne hjpos] at hjb
                have h1 : entLe parent b := by
                  refine ha ((pos - 1) / 2) j parent b ?_ hjpos hvpp ?_
                  · rw [hipp] at hij
                    exact hij
                  · rw [hvother j hjpos]
                    exact hjb
                exact entLe_trans (entLt_imp_entLe hlt) h1
              · rw [hv2other i hipp hipos] at hia
                rw [hv2other j hjne hjpos] at hjb
                refine ha i j a b hij hjpos ?_ ?_
                · rw [hvother i hipos]
                  exact hia
                · rw [hvother j hjpos]
                  exact hjb
        have hb2 : ∀ (c : Nat) (a b : Entry κ), (pos - 1) / 2 ≠ 0 →
            (c = 2 * ((pos - 1) / 2) + 1 ∨ c = 2 * ((pos - 1) / 2) + 2) →
            ((heap.set pos parent).set
              ((pos - 1) / 2) item)[((pos - 1) / 2 - 1) / 2]? = some a →
            ((heap.set pos parent).set ((pos - 1) / 2) item)[c]? = some b →
            entLe a b := by
          intro c a b hpp0 hc hga hcb
          have hgne1 : ((pos - 1) / 2 - 1) / 2 ≠ (pos - 1) / 2 := by omega
          have hgne2 : ((pos - 1) / 2 - 1) / 2 ≠ pos := by omega
          rw [hv2other _ hgne1 hgne2] at hga
          have hgpp : entLe a parent := by
            refine ha (((pos - 1) / 2 - 1) / 2) ((pos - 1) / 2) a parent
              (by omega) hppne ?_ hvpp
            rw [hvother _ hgne2]
            exact hga
          by_cases hcpos : c = pos
          · rw [hcpos, hv2pos] at hcb
            obtain rfl := Option.some.inj hcb
            exact hgpp
          · have hcne : c ≠ (pos - 1) / 2 := by omega
            rw [hv2other c hcne hcpos] at hcb
            have h2 : entLe parent b := by
              refine ha ((pos - 1) / 2) c parent b hc hcpos hvpp ?_
              rw [hvother c hcpos]
              exact hcb
            exact entLe_trans hgpp h2
        obtain ⟨hinv2, hperm2⟩ := ih (heap.set pos parent) item
          ((pos - 1) / 2) (by simpa using hplen) (by omega) ha2 hb2
        refine ⟨hinv2, hperm2.trans ?_⟩
        have heq : (heap.set pos parent).set ((pos - 1) / 2) item =
            (heap.set pos (heap.get ⟨(pos - 1) / 2, hplen⟩)).set
              ((pos - 1) / 2) item := by
          rw [hpdef]
        rw [heq]
        exact set_get_set_perm2 heap ((pos - 1) / 2) pos hplen hpos
          (by omega) item
      · rw [if_neg hlt]
        refine ⟨?_, List.Perm.refl _⟩
        intro i j a b hij hia hjb
        by_cases hjpos : j = pos
        · have hieq : i = (pos - 1) / 2 := by omega
          rw [hieq, hvpp] at hia
          rw [hjpos, hvpos] at hjb
          obtain rfl := Option.some.inj hia
          obtain rfl := Option.some.inj hjb
          exact not_entLt_iff.mp hlt
        · exact ha i j a b hij hjpos hia hjb

theorem heappushPy_spec (heap : List (Entry κ)) (item : Entry κ)
    (hinv : HeapInv heap) :
    HeapInv (heappushPy heap item) ∧
    (heappushPy heap item).Perm (heap ++ [item]) := by
  have hpos : heap.length < (heap ++ [item]).length := by simp
  have hset : (heap ++ [item]).set heap.length item = heap ++ [item] :=
    set_append_length heap item item
  have ha : ∀ (i j : Nat) (a b : Entry κ), (j = 2 * i + 1 ∨ j = 2 * i + 2) →
      j ≠ heap.length →
      ((heap ++ [item]).set heap.length item)[i]? = some a →
      ((heap ++ [item]).set heap.length item)[j]? = some b → entLe a b := by
    intro i j a b hij hjne hia hjb
    rw [hset] at hia hjb
    have hjlen : j < (heap ++ [item]).length :=
      (List.getElem?_eq_some.mp hjb).1
    have hjlt : j < heap.length := by
      simp only [List.length_append, List.length_cons, List.length_nil] at hjlen
      omega
    have hilt : i < heap.length := by omega
    rw [List.getElem?_append_left hilt] at hia
    rw [List.getElem?_append_left hjlt] at hjb
    exact hinv i j a b hij hia hjb
  have hb : ∀ (c : Nat) (a b : Entry κ), heap.length ≠ 0 →
      (c = 2 * heap.length + 1 ∨ c = 2 * heap.length + 2) →
      ((heap ++ [item]).set heap.length item)[(heap.length - 1) / 2]? =
        some a →
      ((heap ++ [item]).set heap.length item)[c]? = some b → entLe a b := by
    intro c a b h0 hc hga hcb
    rw [hset] at hcb
    have hclen : c < (heap ++ [item]).length :=
      (List.getElem?_eq_some.mp hcb).1
    simp only [List.length_append, List.length_cons, List.length_nil] at hclen
    omega
  obtain ⟨h1, h2⟩ := siftdownAux_spec heap.length (heap ++ [item]) item
    heap.length hpos (le_refl _) ha hb
  have hdef : heappushPy heap item =
      siftdownAux (heap ++ [item]) item heap.length heap.length := rfl
  rw [hdef]
  exact ⟨h1, h2.trans (by rw [hset])⟩

theorem siftChild_cases (heap : List (Entry κ)) (pos : Nat)
    (hc : 2 * pos + 1 < heap.length) :
    (∃ h2 : 2 * pos + 2 < heap.length,
       entLt (heap.get ⟨2 * pos + 1, hc⟩)
         (heap.get ⟨2 * pos + 2, h2⟩) ∧
       siftChild heap pos = 2 * pos + 1) ∨
    (∃ h2 : 2 * pos + 2 < heap.length,
       ¬ entLt (heap.get ⟨2 * pos + 1, hc⟩)
         (heap.get ⟨2 * pos + 2, h2⟩) ∧
       siftChild heap pos = 2 * pos + 2) ∨
    (¬ 2 * pos + 2 < heap.length ∧ siftChild heap pos = 2 * pos + 1) := by
  by_cases h2 : 2 * pos + 2 < heap.length
  · by_cases hlt : entLt (heap.get ⟨2 * pos + 1, hc⟩)
        (heap.get ⟨2 * pos + 2, h2⟩)
    · refine Or.inl ⟨h2, hlt, ?_⟩
      unfold siftChild
      rw [if_pos h2, List.getElem?_eq_getElem hc, List.getElem?_eq_getElem h2]
      exact if_pos hlt
    · refine Or.inr (Or.inl ⟨h2, hlt, ?_⟩)
      unfold siftChild
      rw [if_pos h2, List.getElem?_eq_getElem hc, List.getElem?_eq_getElem h2]
      exact if_neg hlt
  · refine Or.inr (Or.inr ⟨h2, ?_⟩)
    unfold siftChild
    rw [if_neg h2]

theorem siftChild_lt (heap : List (Entry κ)) (pos : Nat)
    (hc : 2 * pos + 1 < heap.length) :
    (siftChild heap pos = 2 * pos + 1 ∨ siftChild heap pos = 2 * pos + 2) ∧
    siftChild heap pos < heap.length := by
  rcases siftChild_cases heap pos hc with ⟨h2, _, he⟩ | ⟨h2, _, he⟩ | ⟨h2, he⟩
  · rw [he]
    exact ⟨Or.inl rfl, hc⟩
  · rw [he]
    exact ⟨Or.inr rfl, h2⟩
  · rw [he]
    exact ⟨Or.inl rfl, hc⟩

theorem siftChild_min (heap : List (Entry κ)) (pos : Nat)
    (hc1 : 2 * pos + 1 < heap.length) (j : Nat) (b c : Entry κ)
    (hj : j = 2 * pos + 1 ∨ j = 2 * pos + 2)
    (hjb : heap[j]? = some b) (hcc : heap[siftChild heap pos]? = some c) :
    entLe c b := by
  rcases siftChild_cases heap pos hc1 with ⟨h2, hlt, he⟩ | ⟨h2, hlt, he⟩ |
    ⟨h2, he⟩
  · rw [he, List.getElem?_eq_getElem hc1] at hcc
    obtain rfl := Option.some.inj hcc
    rcases hj with rfl | rfl
    · rw [List.getElem?_eq_getElem hc1] at hjb
      obtain rfl := Option.some.inj hjb
      exact entLe_refl _
    · rw [List.getElem?_eq_getElem h2] at hjb
      obtain rfl := Option.some.inj hjb
      exact entLt_imp_entLe hlt
  · rw [he, List.getElem?_eq_getElem h2] at hcc
    obtain rfl := Option.some.inj hcc
    rcases hj with rfl | rfl
    · rw [List.getElem?_eq_getElem hc1] at hjb
      obtain rfl := Option.some.inj hjb
      exact not_entLt_iff.mp hlt
    · rw [List.getElem?_eq_getElem h2] at hjb
      obtain rfl := Option.some.inj hjb
      exact entLe_refl _
  · rw [he, List.getElem?_eq_getElem hc1] at hcc
    obtain rfl := Option.some.inj hcc
    rcases hj with rfl | rfl
    · rw [List.getElem?_eq_getElem hc1] at hjb
      obtain rfl := Option.some.inj hjb
      exact entLe_refl _
    · have hjlen : 2 * pos + 2 < heap.length :=
        (List.getElem?_eq_some.mp hjb).1
      omega

theorem siftupLoop_spec (fuel : Nat) :
    ∀ (heap : List (Entry κ)) (pos : Nat), pos < heap.length →
      (∀ (i j : Nat) (a b : Entry κ), (j = 2 * i + 1 ∨ j = 2 * i + 2) →
        i ≠ pos → j ≠ pos → heap[i]? = some a → heap[j]? = some b →
        entLe a b) →
      (∀ (c : Nat) (a b : Entry κ), pos ≠ 0 →
        (c = 2 * pos + 1 ∨ c = 2 * pos + 2) →
        heap[(pos - 1) / 2]? = some a → heap[c]? = some b → entLe a b) →
      (siftupLoop heap pos fuel).2 < (siftupLoop heap pos fuel).1.length ∧
      (siftupLoop heap pos fuel).1.length = heap.length ∧
      (heap.length - pos ≤ fuel →
        heap.length ≤ 2 * (siftupLoop heap pos fuel).2 + 1) ∧
      (∀ (i j : Nat) (a b : Entry κ), (j = 2 * i + 1 ∨ j = 2 * i + 2) →
        i ≠ (siftupLoop heap pos fuel).2 →
        j ≠ (siftupLoop heap pos fuel).2 →
        (siftupLoop heap pos fuel).1[i]? = some a →
        (siftupLoop heap pos fuel).1[j]? = some b → entLe a b) ∧
      (∀ x : Entry κ,
        ((siftupLoop heap pos fuel).1.set
          (siftupLoop heap pos fuel).2 x).Perm (heap.set pos x)) := by
  induction fuel with
  | zero =>
    intro heap pos hpos ha hb
    refine ⟨hpos, rfl, ?_, ha, fun x => List.Perm.refl _⟩
    intro hle
    omega
  | succ fuel ih =>
    intro heap pos hpos ha hb
    by_cases hc : 2 * pos + 1 < heap.length
    · obtain ⟨hcor, hclen⟩ := siftChild_lt heap pos hc
      have hcc : heap[siftChild heap pos]? =
          some (heap.get ⟨siftChild heap pos, hclen⟩) :=
        List.getElem?_eq_getElem hclen
      have hstep : siftupLoop heap pos (fuel + 1) =
          siftupLoop (heap.set pos (heap.get ⟨siftChild heap pos, hclen⟩))
            (siftChild heap pos) fuel := by
        rw [siftupLoop, if_pos hc, hcc]
      have hposne : pos ≠ siftChild heap pos := by omega
      have hlen2 : (heap.set pos
          (heap.get ⟨siftChild heap pos, hclen⟩)).length = heap.length := by
        simp
      have ha2 : ∀ (i j : Nat) (a b : Entry κ),
          (j = 2 * i + 1 ∨ j = 2 * i + 2) → i ≠ siftChild heap pos →
          j ≠ siftChild heap pos →
          (heap.set pos (heap.get ⟨siftChild heap pos, hclen⟩))[i]? =
            some a →
          (heap.set pos (heap.get ⟨siftChild heap pos, hclen⟩))[j]? =
            some b → entLe a b := by
        intro i j a b hij hine hjne hia hjb
        by_cases hjpos : j = pos
        · have hp0 : pos ≠ 0 := by omega
          have hieq : i = (pos - 1) / 2 := by omega
          rw [hjpos, List.getElem?_set_self hpos] at hjb
          obtain rfl := Option.some.inj hjb
          have hine2 : pos ≠ i := by omega
          rw [List.getElem?_set_ne hine2] at hia
          refine hb (siftChild heap pos) a _ hp0 hcor ?_ hcc
          rw [← hieq]
          exact hia
        · by_cases hipos : i = pos
          · rw [hipos, List.getElem?_set_self hpos] at hia
            obtain rfl := Option.some.inj hia
            rw [List.getElem?_set_ne (fun h => hjpos h.symm)] at hjb
            have hij2 : j = 2 * pos + 1 ∨ j = 2 * pos + 2 := by
              rw [hipos] at hij
              exact hij
            exact siftChild_min heap pos hc j b _ hij2 hjb hcc
          · rw [List.getElem?_set_ne (fun h => hipos h.symm)] at hia
            rw [List.getElem?_set_ne (fun h => hjpos h.symm)] at hjb
            exact ha i j a b hij hipos hjpos hia hjb
      have hb2 : ∀ (c2 : Nat) (a b : Entry κ), siftChild heap pos ≠ 0 →
          (c2 = 2 * siftChild heap pos + 1 ∨
            c2 = 2 * siftChild heap pos + 2) →
          (heap.set pos
            (heap.get ⟨siftChild heap pos, hclen⟩))[(siftChild heap pos - 1)
              / 2]? = some a →
          (heap.set pos (heap.get ⟨siftChild heap pos, hclen⟩))[c2]? =
            some b → entLe a b := by
        intro c2 a b _ hc2 hga hcb
        have hpar : (siftChild heap pos - 1) / 2 = pos := by omega
        rw [hpar, List.getElem?_set_self hpos] at hga
        obtain rfl := Option.some.inj hga
        have hc2ne1 : c2 ≠ pos := by omega
        have hc2ne2 : c2 ≠ siftChild heap pos := by omega
        rw [List.getElem?_set_ne (fun h => hc2ne1 h.symm)] at hcb
        exact ha (siftChild heap pos) c2 _ b hc2 (Ne.symm hposne) hc2ne1
          hcc hcb
      obtain ⟨g1, g2, g3, g4, g5⟩ := ih
        (heap.set pos (heap.get ⟨siftChild heap pos, hclen⟩))
        (siftChild heap pos) (by rw [hlen2]; exact hclen) ha2 hb2
      rw [hstep]
      refine ⟨g1, by rw [g2, hlen2], ?_, g4, ?_⟩
      · intro hfle
        have hf2 : (heap.set pos
            (heap.get ⟨siftChild heap pos, hclen⟩)).length -
            siftChild heap pos ≤ fuel := by
          rw [hlen2]
          omega
        have hres := g3 hf2
        rw [hlen2] at hres
        exact hres
      · intro x
        exact (g5 x).trans
          (set_get_set_perm heap pos (siftChild heap pos) hpos hclen
            (by omega) x)
    · have hstep : siftupLoop heap pos (fuel + 1) = (heap, pos) := by
        rw [siftupLoop, if_neg hc]
      rw [hstep]
      exact ⟨hpos, rfl, fun _ => by omega, ha, fun x => List.Perm.refl _⟩

theorem heapreplacePy_spec (m : Entry κ) (t : List (Entry κ))
    (item : Entry κ) (hinv : HeapInv (m :: t)) :
    HeapInv (heapreplacePy (m :: t) item) ∧
    (heapreplacePy (m :: t) item).Perm (item :: t) := by
  have h1set : (m :: t).set 0 item = item :: t := rfl
  have hpos0 : 0 < ((m :: t).set 0 item).length := by simp
  have ha1 : ∀ (i j : Nat) (a b : Entry κ),
      (j = 2 * i + 1 ∨ j = 2 * i + 2) → i ≠ 0 → j ≠ 0 →
      ((m :: t).set 0 item)[i]? = some a →
      ((m :: t).set 0 item)[j]? = some b → entLe a b := by
    intro i j a b hij hine hjne hia hjb
    rw [List.getElem?_set_ne (fun h => hine h.symm)] at hia
    rw [List.getElem?_set_ne (fun h => hjne h.symm)] at hjb
    exact hinv i j a b hij hia hjb
  have hb1 : ∀ (c : Nat) (a b : Entry κ), (0 : Nat) ≠ 0 →
      (c = 2 * 0 + 1 ∨ c = 2 * 0 + 2) →
      ((m :: t).set 0 item)[(0 - 1) / 2]? = some a →
      ((m :: t).set 0 item)[c]? = some b → entLe a b :=
    fun _ _ _ h0 => absurd rfl h0
  obtain ⟨g1, g2, g3, g4, g5⟩ := siftupLoop_spec (m :: t).length
    ((m :: t).set 0 item) 0 hpos0 ha1 hb1
  have hfleaf : ((m :: t).set 0 item).length ≤
      2 * (siftupLoop ((m :: t).set 0 item) 0 (m :: t).length).2 + 1 := by
    refine g3 ?_
    simp
  have hreplace : heapreplacePy (m :: t) item =
      siftdownAux
        ((siftupLoop ((m :: t).set 0 item) 0 (m :: t).length).1.set
          (siftupLoop ((m :: t).set 0 item) 0 (m :: t).length).2 item)
        item (siftupLoop ((m :: t).set 0 item) 0 (m :: t).length).2
        (siftupLoop ((m :: t).set 0 item) 0 (m :: t).length).2 := rfl
  have hsetset : ∀ x : Entry κ,
      ((siftupLoop ((m :: t).set 0 item) 0 (m :: t).length).1.set
        (siftupLoop ((m :: t).set 0 item) 0 (m :: t).length).2 item).set
        (siftupLoop ((m :: t).set 0 item) 0 (m :: t).length).2 x =
      (siftupLoop ((m :: t).set 0 item) 0 (m :: t).length).1.set
        (siftupLoop ((m :: t).set 0 item) 0 (m :: t).length).2 x := by
    intro x
    rw [List.set_set]
  have hlen3 : (siftupLoop ((m :: t).set 0 item) 0
      (m :: t).length).2 <
      ((siftupLoop ((m :: t).set 0 item) 0 (m :: t).length).1.set
        (siftupLoop ((m :: t).set 0 item) 0 (m :: t).length).2 item).length :=
    by simpa using g1
  have ha3 : ∀ (i j : Nat) (a b : Entry κ),
      (j = 2 * i + 1 ∨ j = 2 * i + 2) →
      j ≠ (siftupLoop ((m :: t).set 0 item) 0 (m :: t).length).2 →
      (((siftupLoop ((m :: t).set 0 item) 0 (m :: t).length).1.set
        (siftupLoop ((m :: t).set 0 item) 0 (m :: t).length).2 item).set
        (siftupLoop ((m :: t).set 0 item) 0 (m :: t).length).2 item)[i]? =
        some a →
      (((siftupLoop ((m :: t).set 0 item) 0 (m :: t).length).1.set
        (siftupLoop ((m :: t).set 0 item) 0 (m :: t).length).2 item).set
        (siftupLoop ((m :: t).set 0 item) 0 (m :: t).length).2 item)[j]? =
        some b → entLe a b := by
    intro i j a b hij hjne hia hjb
    rw [hsetset item] at hia hjb
    by_cases hipf : i = (siftupLoop ((m :: t).set 0 item) 0
        (m :: t).length).2
    · have hjlen : j < ((siftupLoop ((m :: t).set 0 item) 0
          (m :: t).length).1.set
          (siftupLoop ((m :: t).set 0 item) 0 (m :: t).length).2 item).length
        := (List.getElem?_eq_some.mp hjb).1
      rw [List.length_set, g2] at hjlen
      omega
    · rw [List.getElem?_set_ne (fun h => hipf h.symm)] at hia
      rw [List.getElem?_set_ne (fun h => hjne h.symm)] at hjb
      exact g4 i j a b hij hipf hjne hia hjb
  have hb3 : ∀ (c : Nat) (a b : Entry κ),
      (siftupLoop ((m :: t).set 0 item) 0 (m :: t).length).2 ≠ 0 →
      (c = 2 * (siftupLoop ((m :: t).set 0 item) 0 (m :: t).length).2 + 1 ∨
       c = 2 * (siftupLoop ((m :: t).set 0 item) 0 (m :: t).length).2 + 2) →
      (((siftupLoop ((m :: t).set 0 item) 0 (m :: t).length).1.set
        (siftupLoop ((m :: t).set 0 item) 0 (m :: t).length).2 item).set
        (siftupLoop ((m :: t).set 0 item) 0 (m :: t).length).2
          item)[(((siftupLoop ((m :: t).set 0 item) 0
            (m :: t).length).2 - 1) / 2)]? = some a →
      (((siftupLoop ((m :: t).set 0 item) 0 (m :: t).length).1.set
        (siftupLoop ((m :: t).set 0 item) 0 (m :: t).length).2 item).set
        (siftupLoop ((m :: t).set 0 item) 0 (m :: t).length).2 item)[c]? =
        some b → entLe a b := by
    intro c a b hpf0 hc hga hcb
    have hclen := (List.getElem?_eq_some.mp hcb).1
    rw [List.length_set, List.length_set, g2] at hclen
    omega
  obtain ⟨hfin1, hfin2⟩ := siftdownAux_spec
    (siftupLoop ((m :: t).set 0 item) 0 (m :: t).length).2
    ((siftupLoop ((m :: t).set 0 item) 0 (m :: t).length).1.set
      (siftupLoop ((m :: t).set 0 item) 0 (m :: t).length).2 item)
    item (siftupLoop ((m :: t).set 0 item) 0 (m :: t).length).2
    hlen3 (le_refl _) ha3 hb3
  rw [hreplace]
  refine ⟨hfin1, ?_⟩
  refine hfin2.trans ?_
  rw [hsetset item]
  refine (g5 item).trans ?_
  rw [List.set_set]
  exact List.Perm.refl _

theorem heapInv_nil : HeapInv ([] : List (Entry κ)) := by
  intro i j a b hij hia hjb
  simp at hia

theorem drainDesc_perm (h : List (Entry κ)) : (drainDesc h).Perm h :=
  List.perm_insertionSort keyGE h

theorem drainDesc_sorted (h : List (Entry κ)) :
    (drainDesc h).Sorted keyGE :=
  List.sorted_insertionSort keyGE h

/-- Full behavioural description of one `offer` (lines 255-260 / 314-318):
below capacity every entry is inserted unconditionally; on a full non-empty
heap the root `m` is a minimum-key entry, it is evicted exactly when the
incoming key is strictly greater, and an incoming entry whose key ties or is
below the minimum is discarded leaving the heap untouched. -/
theorem offerE_spec (cap : Int) (heap : List (Entry κ)) (e : Entry κ)
    (hinv : HeapInv heap) :
    ((heap.length : Int) < cap →
      offerE cap heap e = .ok (heappushPy heap e) ∧
      HeapInv (heappushPy heap e) ∧
      (heappushPy heap e).Perm (heap ++ [e])) ∧
    (∀ m t, heap = m :: t → ¬ ((heap.length : Int) < cap) →
      (∀ x ∈ heap, m.key ≤ x.key) ∧
      (m.key < e.key →
        offerE cap heap e = .ok (heapreplacePy heap e) ∧
        HeapInv (heapreplacePy heap e) ∧
        (heapreplacePy heap e).Perm (e :: t)) ∧
      (¬ m.key < e.key → offerE cap heap e = .ok heap)) := by
  constructor
  · intro hlt
    obtain ⟨h1, h2⟩ := heappushPy_spec heap e hinv
    refine ⟨?_, h1, h2⟩
    unfold offerE
    rw [if_pos hlt]
  · rintro m t rfl hfull
    refine ⟨?_, ?_, ?_⟩
    · intro x hx
      obtain ⟨n, hn⟩ := List.mem_iff_getElem?.mp hx
      have hm : (m :: t)[0]? = some m := by simp
      exact entLe_key (heapInv_root_min hinv n m x hm hn)
    · intro hklt
      obtain ⟨h1, h2⟩ := heapreplacePy_spec m t e hinv
      refine ⟨?_, h1, h2⟩
      unfold offerE
      rw [if_neg hfull]
      have hhead : (m :: t).head? = some m := rfl
      rw [hhead]
      show (if m.key < e.key then Except.ok (heapreplacePy (m :: t) e)
        else Except.ok (m :: t)) = Except.ok (heapreplacePy (m :: t) e)
      rw [if_pos hklt]
    · intro hkge
      unfold offerE
      rw [if_neg hfull]
      have hhead : (m :: t).head? = some m := rfl
      rw [hhead]
      show (if m.key < e.key then Except.ok (heapreplacePy (m :: t) e)
        else Except.ok (m :: t)) = Except.ok (m :: t)
      rw [if_neg hkge]

/-! ## Association-list lemmas -/

theorem getAssoc_setAssoc_self {α β : Type} [DecidableEq β]
    (l : List (β × α)) (k : β) (v : α) (d : α) :
    getAssoc (setAssoc l k v) k d = v := by
  induction l with
  | nil => simp [getAssoc, setAssoc, List.find?]
  | cons kv rest ih =>
    by_cases h : kv.1 = k
    · simp [setAssoc, h, getAssoc, List.find?]
    · simp only [setAssoc, if_neg h]
      simp only [getAssoc, List.find?]
      rw [show (decide (kv.1 = k)) = false by simp [h]]
      exact ih

theorem getAssoc_setAssoc_ne {α β : Type} [DecidableEq β]
    (l : List (β × α)) (k k2 : β) (v : α) (d : α) (h : k ≠ k2) :
    getAssoc (setAssoc l k v) k2 d = getAssoc l k2 d := by
  induction l with
  | nil => simp [getAssoc, setAssoc, List.find?, h]
  | cons kv rest ih =>
    by_cases hk : kv.1 = k
    · simp only [setAssoc, if_pos hk]
      simp only [getAssoc, List.find?]
      rw [show (decide (k = k2)) = false by simp [h]]
      rw [show (decide (kv.1 = k2)) = false by simp [hk, h]]
    · simp only [setAssoc, if_neg hk]
      simp only [getAssoc, List.find?]
      by_cases hk2 : kv.1 = k2
      · rw [show (decide (kv.1 = k2)) = true by simp [hk2]]
      · rw [show (decide (kv.1 = k2)) = false by simp [hk2]]
        exact ih

theorem mem_setAssoc {α β : Type} [DecidableEq β] (l : List (β × α))
    (k : β) (v : α) : ∀ kv ∈ setAssoc l k v, kv = (k, v) ∨ kv ∈ l := by
  induction l with
  | nil =>
    intro kv hkv
    simp [setAssoc] at hkv
    exact Or.inl hkv
  | cons kv0 rest ih =>
    intro kv hkv
    by_cases h : kv0.1 = k
    · simp only [setAssoc, if_pos h] at hkv
      rcases List.mem_cons.mp hkv with rfl | hkv
      · exact Or.inl rfl
      · exact Or.inr (List.mem_cons_of_mem _ hkv)
    · simp only [setAssoc, if_neg h] at hkv
      rcases List.mem_cons.mp hkv with rfl | hkv
      · exact Or.inr (List.mem_cons_self _ _)
      · rcases ih kv hkv with h1 | h1
        · exact Or.inl h1
        · exact Or.inr (List.mem_cons_of_mem _ h1)

theorem keys_setAssoc {α β : Type} [DecidableEq β] (l : List (β × α))
    (k : β) (v : α) :
    (setAssoc l k v).map Prod.fst =
      (if k ∈ l.map Prod.fst then l.map Prod.fst
       else l.map Prod.fst ++ [k]) := by
  induction l with
  | nil => simp [setAssoc]
  | cons kv0 rest ih =>
    by_cases h : kv0.1 = k
    · simp [setAssoc, h]
    · simp only [setAssoc, if_neg h, List.map_cons, ih]
      by_cases hmem : k ∈ rest.map Prod.fst
      · rw [if_pos hmem, if_pos (List.mem_cons_of_mem _ hmem)]
      · have hnot : k ∉ kv0.1 :: rest.map Prod.fst := by
          intro hcon
          rcases List.mem_cons.mp hcon with heq | hcon2
          · exact h heq.symm
          · exact hmem hcon2
        rw [if_neg hmem, if_neg hnot]
        simp

theorem nodup_keys_setAssoc {α β : Type} [DecidableEq β]
    (l : List (β × α)) (k : β) (v : α)
    (h : (l.map Prod.fst).Nodup) :
    ((setAssoc l k v).map Prod.fst).Nodup := by
  rw [keys_setAssoc]
  by_cases hmem : k ∈ l.map Prod.fst
  · rw [if_pos hmem]
    exact h
  · rw [if_neg hmem]
    simp [List.nodup_append, h, hmem]

theorem mem_getAssoc_nil {α β : Type} [DecidableEq β]
    (l : List (β × List α)) (k : β) (x : α)
    (hx : x ∈ getAssoc l k []) :
    ∃ kv ∈ l, kv.1 = k ∧ x ∈ kv.2 := by
  unfold getAssoc at hx
  rcases hfind : l.find? (fun kv => kv.1 = k) with _ | kv
  · rw [hfind] at hx
    simp at hx
  · rw [hfind] at hx
    refine ⟨kv, List.mem_of_find?_eq_some hfind, ?_, hx⟩
    have := List.find?_some hfind
    simpa using this

/-! ## Fold invariants for the flat selection -/

theorem offerE_wf (gkey : Puzzle → κ) (cap : Int) (heap : List (Entry κ))
    (e : Entry κ) (hcap : 1 ≤ cap) (hinv : HeapInv heap)
    (hlen : (heap.length : Int) ≤ cap)
    (hkeys : ∀ q ∈ heap, q.key = gkey q.puzzle)
    (hekey : e.key = gkey e.puzzle) :
    ∃ h2, offerE cap heap e = .ok h2 ∧ HeapInv h2 ∧
      ((h2.length : Int) ≤ cap) ∧
      (∀ q ∈ h2, q.key = gkey q.puzzle) ∧
      (∀ k : κ, (∃ q ∈ heap, k ≤ q.key) → ∃ q ∈ h2, k ≤ q.key) ∧
      (∃ q ∈ h2, e.key ≤ q.key) := by
  obtain ⟨hbelow, hfull⟩ := offerE_spec cap heap e hinv
  by_cases hlt : (heap.length : Int) < cap
  · obtain ⟨heq, hinv2, hperm⟩ := hbelow hlt
    refine ⟨heappushPy heap e, heq, hinv2, ?_, ?_, ?_, ?_⟩
    · rw [hperm.length_eq]
      simp only [List.length_append, List.length_cons, List.length_nil]
      omega
    · intro q hq
      rcases List.mem_append.mp (hperm.mem_iff.mp hq) with hq2 | hq2
      · exact hkeys q hq2
      · rw [List.mem_singleton.mp hq2]
        exact hekey
    · rintro k ⟨q, hq, hk⟩
      exact ⟨q, hperm.mem_iff.mpr (List.mem_append_left _ hq), hk⟩
    · exact ⟨e, hperm.mem_iff.mpr (List.mem_append_right _ (by simp)),
        le_refl _⟩
  · cases heap with
    | nil =>
      exact absurd (by simpa using hcap) hlt
    | cons m t =>
      obtain ⟨hmin, hrep, hdis⟩ := hfull m t rfl hlt
      by_cases hklt : m.key < e.key
      · obtain ⟨heq, hinv2, hperm⟩ := hrep hklt
        refine ⟨heapreplacePy (m :: t) e, heq, hinv2, ?_, ?_, ?_, ?_⟩
        · rw [hperm.length_eq]
          simpa using hlen
        · intro q hq
          rcases List.mem_cons.mp (hperm.mem_iff.mp hq) with rfl | hq2
          · exact hekey
          · exact hkeys q (List.mem_cons_of_mem _ hq2)
        · rintro k ⟨q, hq, hk⟩
          rcases List.mem_cons.mp hq with rfl | hq2
          · exact ⟨e, hperm.mem_iff.mpr (List.mem_cons_self _ _),
              le_of_lt (lt_of_le_of_lt hk hklt)⟩
          · exact ⟨q, hperm.mem_iff.mpr (List.mem_cons_of_mem _ hq2), hk⟩
        · exact ⟨e, hperm.mem_iff.mpr (List.mem_cons_self _ _), le_refl _⟩
      · refine ⟨m :: t, hdis hklt, hinv, hlen, hkeys, fun k hk => hk, ?_⟩
        exact ⟨m, List.mem_cons_self _ _, le_of_not_lt hklt⟩

theorem heapsWF_get (gkey : Puzzle → κ) (cap : Int)
    (heaps : List (String × List (Entry κ))) (hcap : 1 ≤ cap)
    (hwf : HeapsWF gkey cap heaps) (t : String) :
    HeapInv (getAssoc heaps t []) ∧
    ((getAssoc heaps t []).length : Int) ≤ cap ∧
    ∀ q ∈ getAssoc heaps t [], q.key = gkey q.puzzle := by
  unfold getAssoc
  rcases hfind : heaps.find? (fun kv => kv.1 = t) with _ | kv
  · rw [hfind]
    refine ⟨heapInv_nil, ?_, by simp⟩
    simp only [List.length_nil, Int.natCast_zero]
    omega
  · rw [hfind]
    have hmem := List.mem_of_find?_eq_some hfind
    obtain ⟨h1, h2, h3⟩ := hwf.2 kv hmem
    exact ⟨h1, h2, h3⟩

theorem heapsWF_set (gkey : Puzzle → κ) (cap : Int)
    (heaps : List (String × List (Entry κ))) (t : String)
    (h2 : List (Entry κ)) (hwf : HeapsWF gkey cap heaps)
    (hinv2 : HeapInv h2) (hlen2 : (h2.length : Int) ≤ cap)
    (hkeys2 : ∀ q ∈ h2, q.key = gkey q.puzzle) :
    HeapsWF gkey cap (setAssoc heaps t h2) := by
  refine ⟨nodup_keys_setAssoc heaps t h2 hwf.1, ?_⟩
  intro kv hkv
  rcases mem_setAssoc heaps t h2 kv hkv with rfl | hkv2
  · exact ⟨hinv2, hlen2, hkeys2⟩
  · exact hwf.2 kv hkv2

theorem themesFoldFlat_wf (gkey : Puzzle → κ) (cap : Int)
    (inc : Option (List String)) (p : Puzzle) (hcap : 1 ≤ cap) :
    ∀ (ts : List String) (st : FlatState κ), HeapsWF gkey cap st.heaps →
      ∃ st2, ts.foldlM (offerThemeFlat gkey cap inc p) st = .ok st2 ∧
        HeapsWF gkey cap st2.heaps ∧
        (∀ (t2 : String) (k : κ),
          (∃ q ∈ getAssoc st.heaps t2 [], k ≤ q.key) →
          ∃ q ∈ getAssoc st2.heaps t2 [], k ≤ q.key) ∧
        (∀ t2 ∈ ts, includeOk inc t2 = true →
          ∃ q ∈ getAssoc st2.heaps t2 [], gkey p ≤ q.key) := by
  intro ts
  induction ts with
  | nil =>
    intro st hwf
    exact ⟨st, rfl, hwf, fun t2 k h => h, by simp⟩
  | cons t rest ih =>
    intro st hwf
    by_cases hinc : includeOk inc t = true
    · obtain ⟨hgi, hgl, hgk⟩ := heapsWF_get gkey cap st.heaps hcap hwf t
      obtain ⟨h2, hok, hinv2, hlen2, hkeys2, hmono, hself⟩ :=
        offerE_wf gkey cap (getAssoc st.heaps t [])
          ⟨gkey p, st.counter, p⟩ hcap hgi hgl hgk rfl
      have hstep : offerThemeFlat gkey cap inc p st t =
          .ok ⟨setAssoc st.heaps t h2, st.counter + 1⟩ := by
        unfold offerThemeFlat
        rw [if_pos hinc, hok]
        rfl
      have hwf1 : HeapsWF gkey cap
          (setAssoc st.heaps t h2) :=
        heapsWF_set gkey cap st.heaps t h2 hwf hinv2 hlen2 hkeys2
      obtain ⟨st2, hfold, hwf2, hmono2, hrest⟩ :=
        ih ⟨setAssoc st.heaps t h2, st.counter + 1⟩ hwf1
      refine ⟨st2, ?_, hwf2, ?_, ?_⟩
      · rw [List.foldlM_cons, hstep]
        exact hfold
      · intro t2 k hk
        refine hmono2 t2 k ?_
        by_cases ht2 : t2 = t
        · subst ht2
          show ∃ q ∈ getAssoc (setAssoc st.heaps t2 h2) t2 [], k ≤ q.key
          rw [getAssoc_setAssoc_self]
          exact hmono k hk
        · show ∃ q ∈ getAssoc (setAssoc st.heaps t h2) t2 [], k ≤ q.key
          rw [getAssoc_setAssoc_ne st.heaps t t2 h2 [] (fun h => ht2 h.symm)]
          exact hk
      · intro t2 ht2 hinc2
        rcases List.mem_cons.mp ht2 with rfl | ht2r
        · refine hmono2 t2 (gkey p) ?_
          show ∃ q ∈ getAssoc (setAssoc st.heaps t2 h2) t2 [],
            gkey p ≤ q.key
          rw [getAssoc_setAssoc_self]
          exact hself
        · exact hrest t2 ht2r hinc2
    · have hstep : offerThemeFlat gkey cap inc p st t = .ok st := by
        unfold offerThemeFlat
        rw [if_neg hinc]
      obtain ⟨st2, hfold, hwf2, hmono2, hrest⟩ := ih st hwf
      refine ⟨st2, ?_, hwf2, hmono2, ?_⟩
      · rw [List.foldlM_cons, hstep]
        exact hfold
      · intro t2 ht2 hinc2
        rcases List.mem_cons.mp ht2 with rfl | ht2r
        · exact absurd hinc2 hinc
        · exact hrest t2 ht2r hinc2

theorem flatFoldStream_wf (gkey : Puzzle → κ) (cap : Int)
    (inc : Option (List String)) (hcap : 1 ≤ cap) :
    ∀ (stream : List Puzzle) (st : FlatState κ),
      HeapsWF gkey cap st.heaps →
      ∃ st2, stream.foldlM (offerPuzzleFlat gkey cap inc) st = .ok st2 ∧
        HeapsWF gkey cap st2.heaps ∧
        (∀ (t : String) (k : κ),
          (∃ q ∈ getAssoc st.heaps t [], k ≤ q.key) →
          ∃ q ∈ getAssoc st2.heaps t [], k ≤ q.key) ∧
        (∀ p ∈ stream, ∀ t ∈ primaryThemes p, includeOk inc t = true →
          ∃ q ∈ getAssoc st2.heaps t [], gkey p ≤ q.key) := by
  intro stream
  induction stream with
  | nil =>
    intro st hwf
    exact ⟨st, rfl, hwf, fun t k h => h, by simp⟩
  | cons p ps ih =>
    intro st hwf
    by_cases hemp : (primaryThemes p).isEmpty
    · have hstep : offerPuzzleFlat gkey cap inc st p = .ok st := by
        unfold offerPuzzleFlat
        rw [if_pos hemp]
      obtain ⟨st2, hfold, hwf2, hmono, hrep⟩ := ih st hwf
      refine ⟨st2, ?_, hwf2, hmono, ?_⟩
      · rw [List.foldlM_cons, hstep]
        exact hfold
      · intro q hq t ht hinc
        rcases List.mem_cons.mp hq with rfl | hq2
        · rw [List.isEmpty_iff] at hemp
          rw [hemp] at ht
          simp at ht
        · exact hrep q hq2 t ht hinc
    · obtain ⟨st1, hok1, hwf1, hmono1, hself1⟩ :=
        themesFoldFlat_wf gkey cap inc p hcap (primaryThemes p) st hwf
      have hstep : offerPuzzleFlat gkey cap inc st p = .ok st1 := by
        unfold offerPuzzleFlat
        rw [if_neg hemp]
        exact hok1
      obtain ⟨st2, hfold, hwf2, hmono2, hrep2⟩ := ih st1 hwf1
      refine ⟨st2, ?_, hwf2, fun t k hk => hmono2 t k (hmono1 t k hk), ?_⟩
      · rw [List.foldlM_cons, hstep]
        exact hfold
      · intro q hq t ht hinc
        rcases List.mem_cons.mp hq with rfl | hq2
        · exact hmono2 t (gkey q) (hself1 t ht hinc)
        · exact hrep2 q hq2 t ht hinc

/-! ## Shape of the flattened output -/

theorem foldl_append_eq_bind {α β : Type} (f : α → List β) :
    ∀ (l : List α) (acc : List β),
      l.foldl (fun acc x => acc ++ f x) acc = acc ++ l.flatMap f := by
  intro l
  induction l with
  | nil =>
    intro acc
    simp
  | cons x xs ih =>
    intro acc
    rw [List.foldl_cons, ih, List.flatMap_cons, List.append_assoc]

theorem filter_bind_nil {H : Type} (f : (String × H) → List (String × Puzzle))
    (hf : ∀ kv y, y ∈ f kv → y.1 = kv.1) (t : String) :
    ∀ heaps : List (String × H), (∀ kv ∈ heaps, kv.1 ≠ t) →
      (heaps.flatMap f).filter (fun tp => tp.1 = t) = [] := by
  intro heaps
  induction heaps with
  | nil =>
    intro _
    simp
  | cons kv rest ih =>
    intro hne
    rw [List.flatMap_cons, List.filter_append]
    rw [ih (fun kv2 h2 => hne kv2 (List.mem_cons_of_mem _ h2))]
    have h1 : (f kv).filter (fun tp => tp.1 = t) = [] := by
      rw [List.filter_eq_nil_iff]
      intro y hy
      have hy1 := hf kv y hy
      have hne1 := hne kv (List.mem_cons_self _ _)
      simp only [decide_eq_true_eq]
      rw [hy1]
      exact hne1
    rw [h1]
    simp

theorem filter_bind_cases {H : Type}
    (f : (String × H) → List (String × Puzzle))
    (hf : ∀ kv y, y ∈ f kv → y.1 = kv.1) :
    ∀ heaps : List (String × H), (heaps.map Prod.fst).Nodup →
      ∀ t : String,
      ((heaps.flatMap f).filter (fun tp => tp.1 = t) = [] ∨
       ∃ kv ∈ heaps, kv.1 = t ∧
         (heaps.flatMap f).filter (fun tp => tp.1 = t) = f kv) := by
  intro heaps
  induction heaps with
  | nil =>
    intro _ t
    left
    simp
  | cons kv rest ih =>
    intro hnd t
    have hndr : (rest.map Prod.fst).Nodup := (List.nodup_cons.mp hnd).2
    rw [List.flatMap_cons, List.filter_append]
    by_cases hkt : kv.1 = t
    · right
      refine ⟨kv, List.mem_cons_self _ _, hkt, ?_⟩
      have h1 : (f kv).filter (fun tp => tp.1 = t) = f kv := by
        rw [List.filter_eq_self]
        intro y hy
        simp only [decide_eq_true_eq]
        rw [hf kv y hy]
        exact hkt
      have h2 : (rest.flatMap f).filter (fun tp => tp.1 = t) = [] := by
        refine filter_bind_nil f hf t rest ?_
        intro kv2 hkv2 hkv2t
        have hnotin := (List.nodup_cons.mp hnd).1
        refine hnotin ?_
        rw [hkt, ← hkv2t]
        exact List.mem_map_of_mem Prod.fst hkv2
      rw [h1, h2]
      simp
    · have h1 : (f kv).filter (fun tp => tp.1 = t) = [] := by
        rw [List.filter_eq_nil_iff]
        intro y hy
        simp only [decide_eq_true_eq]
        rw [hf kv y hy]
        exact hkt
      rw [h1, List.nil_append]
      rcases ih hndr t with h | ⟨kv2, hm, he, hee⟩
      · left
        exact h
      · right
        exact ⟨kv2, List.mem_cons_of_mem _ hm, he, hee⟩

theorem selectFlat_out_bind (gkey : Puzzle → κ) (cap : Int)
    (inc : Option (List String)) (stream : List Puzzle) (st : FlatState κ)
    (h : flatHeapsE gkey cap inc stream = .ok st) :
    selectFlatE gkey cap inc stream =
      .ok (st.heaps.flatMap
        (fun th => (drainDesc th.2).map (fun e => (th.1, e.puzzle)))) := by
  unfold selectFlatE
  rw [h]
  show Except.ok (st.heaps.foldl
      (fun acc th => acc ++ (drainDesc th.2).map (fun e => (th.1, e.puzzle)))
      []) = _
  rw [foldl_append_eq_bind
    (fun th => (drainDesc th.2).map (fun e => (th.1, e.puzzle))) st.heaps []]
  rw [List.nil_append]

/-! ## Fold invariants for the stratified selection -/

theorem stratWF_bins (gkey : Puzzle → κ) (quota : Int)
    (hs : List (String × List (Int × List (Entry κ))))
    (hwf : StratWF gkey quota hs) (t : String) :
    ((getAssoc hs t []).map Prod.fst).Nodup ∧
    ∀ bh ∈ getAssoc hs t [], HeapInv bh.2 ∧ (bh.2.length : Int) ≤ quota ∧
      ∀ e ∈ bh.2, e.key = gkey e.puzzle := by
  unfold getAssoc
  rcases hfind : hs.find? (fun kv => kv.1 = t) with _ | kv
  · rw [hfind]
    exact ⟨List.nodup_nil, by simp⟩
  · rw [hfind]
    exact hwf.2 kv (List.mem_of_find?_eq_some hfind)

theorem stratWF_get (gkey : Puzzle → κ) (quota : Int)
    (hs : List (String × List (Int × List (Entry κ))))
    (hquota : 1 ≤ quota) (hwf : StratWF gkey quota hs) (t : String)
    (b : Int) :
    HeapInv (getAssoc (getAssoc hs t []) b []) ∧
    ((getAssoc (getAssoc hs t []) b []).length : Int) ≤ quota ∧
    ∀ q ∈ getAssoc (getAssoc hs t []) b [], q.key = gkey q.puzzle := by
  obtain ⟨hnd, hprop⟩ := stratWF_bins gkey quota hs hwf t
  revert hprop
  generalize getAssoc hs t [] = bins
  intro hprop
  unfold getAssoc
  rcases hfind : bins.find? (fun kv => kv.1 = b) with _ | bh
  · rw [hfind]
    refine ⟨heapInv_nil, ?_, by simp⟩
    simp only [List.length_nil, Int.natCast_zero]
    omega
  · rw [hfind]
    exact hprop bh (List.mem_of_find?_eq_some hfind)

theorem stratWF_set (gkey : Puzzle → κ) (quota : Int)
    (hs : List (String × List (Int × List (Entry κ))))
    (t : String) (b : Int) (h2 : List (Entry κ))
    (hwf : StratWF gkey quota hs) (hinv2 : HeapInv h2)
    (hlen2 : (h2.length : Int) ≤ quota)
    (hkeys2 : ∀ q ∈ h2, q.key = gkey q.puzzle) :
    StratWF gkey quota
      (setAssoc hs t (setAssoc (getAssoc hs t []) b h2)) := by
  obtain ⟨hndb, hpropb⟩ := stratWF_bins gkey quota hs hwf t
  refine ⟨nodup_keys_setAssoc hs t _ hwf.1, ?_⟩
  intro kv hkv
  rcases mem_setAssoc hs t _ kv hkv with rfl | hkv2
  · refine ⟨nodup_keys_setAssoc _ b h2 hndb, ?_⟩
    intro bh hbh
    rcases mem_setAssoc _ b h2 bh hbh with rfl | hbh2
    · exact ⟨hinv2, hlen2, hkeys2⟩
    · exact hpropb bh hbh2
  · exact hwf.2 kv hkv2

theorem themesFoldStrat_wf (gkey : Puzzle → κ) (quota : Int)
    (inc : Option (List String)) (e : Entry κ) (binIndex : Int)
    (hquota : 1 ≤ quota) (hekey : e.key = gkey e.puzzle) :
    ∀ (ts : List String) (hs : List (String × List (Int × List (Entry κ)))),
      StratWF gkey quota hs →
      ∃ hs2, ts.foldlM (offerThemeStrat quota inc e binIndex) hs = .ok hs2 ∧
        StratWF gkey quota hs2 ∧
        (∀ (t2 : String) (b2 : Int) (k : κ),
          (∃ q ∈ getAssoc (getAssoc hs t2 []) b2 [], k ≤ q.key) →
          ∃ q ∈ getAssoc (getAssoc hs2 t2 []) b2 [], k ≤ q.key) ∧
        (∀ t2 ∈ ts, includeOk inc t2 = true →
          ∃ q ∈ getAssoc (getAssoc hs2 t2 []) binIndex [],
            e.key ≤ q.key) := by
  intro ts
  induction ts with
  | nil =>
    intro hs hwf
    exact ⟨hs, rfl, hwf, fun t2 b2 k h => h, by simp⟩
  | cons t rest ih =>
    intro hs hwf
    by_cases hinc : includeOk inc t = true
    · obtain ⟨hgi, hgl, hgk⟩ := stratWF_get gkey quota hs hquota hwf t
        binIndex
      obtain ⟨h2, hok, hinv2, hlen2, hkeys2, hmono, hself⟩ :=
        offerE_wf gkey quota (getAssoc (getAssoc hs t []) binIndex [])
          e hquota hgi hgl hgk hekey
      have hstep : offerThemeStrat quota inc e binIndex hs t =
          .ok (setAssoc hs t (setAssoc (getAssoc hs t []) binIndex h2)) := by
        unfold offerThemeStrat
        rw [if_pos hinc, hok]
        rfl
      have hwf1 := stratWF_set gkey quota hs t binIndex h2 hwf hinv2
        hlen2 hkeys2
      obtain ⟨hs2, hfold, hwf2, hmono2, hrest⟩ :=
        ih (setAssoc hs t (setAssoc (getAssoc hs t []) binIndex h2)) hwf1
      have hget1 : ∀ (t2 : String) (b2 : Int) (k : κ),
          (∃ q ∈ getAssoc (getAssoc hs t2 []) b2 [], k ≤ q.key) →
          ∃ q ∈ getAssoc (getAssoc
            (setAssoc hs t (setAssoc (getAssoc hs t []) binIndex h2))
              t2 []) b2 [], k ≤ q.key := by
        intro t2 b2 k hk
        by_cases ht2 : t2 = t
        · subst ht2
          rw [getAssoc_setAssoc_self]
          by_cases hb2 : b2 = binIndex
          · subst hb2
            rw [getAssoc_setAssoc_self]
            exact hmono k hk
          · rw [getAssoc_setAssoc_ne _ _ _ _ _ (fun h => hb2 h.symm)]
            exact hk
        · rw [getAssoc_setAssoc_ne _ _ _ _ _ (fun h => ht2 h.symm)]
          exact hk
      refine ⟨hs2, ?_, hwf2, ?_, ?_⟩
      · rw [List.foldlM_cons, hstep]
        exact hfold
      · intro t2 b2 k hk
        exact hmono2 t2 b2 k (hget1 t2 b2 k hk)
      · intro t2 ht2 hinc2
        rcases List.mem_cons.mp ht2 with rfl | ht2r
        · refine hmono2 t2 binIndex e.key ?_
          rw [getAssoc_setAssoc_self, getAssoc_setAssoc_self]
          exact hself
        · exact hrest t2 ht2r hinc2
    · have hstep : offerThemeStrat quota inc e binIndex hs t = .ok hs := by
        unfold offerThemeStrat
        rw [if_neg hinc]
      obtain ⟨hs2, hfold, hwf2, hmono2, hrest⟩ := ih hs hwf
      refine ⟨hs2, ?_, hwf2, hmono2, ?_⟩
      · rw [List.foldlM_cons, hstep]
        exact hfold
      · intro t2 ht2 hinc2
        rcases List.mem_cons.mp ht2 with rfl | ht2r
        · exact absurd hinc2 hinc
        · exact hrest t2 ht2r hinc2

theorem stratFoldStream_wf (gkey : Puzzle → κ) (quota lo hi w : Int)
    (inc : Option (List String)) (hquota : 1 ≤ quota) :
    ∀ (stream : List Puzzle) (st : StratState κ),
      StratWF gkey quota st.heaps →
      ∃ st2, stream.foldlM (offerPuzzleStrat gkey quota lo hi w inc) st =
          .ok st2 ∧
        StratWF gkey quota st2.heaps ∧
        (∀ (t : String) (b : Int) (k : κ),
          (∃ q ∈ getAssoc (getAssoc st.heaps t []) b [], k ≤ q.key) →
          ∃ q ∈ getAssoc (getAssoc st2.heaps t []) b [], k ≤ q.key) ∧
        (∀ p ∈ stream, ∀ t ∈ primaryThemes p, includeOk inc t = true →
          ∃ q ∈ getAssoc (getAssoc st2.heaps t [])
            (ratingBinIndex p.rating lo hi w) [], gkey p ≤ q.key) := by
  intro stream
  induction stream with
  | nil =>
    intro st hwf
    exact ⟨st, rfl, hwf, fun t b k h => h, by simp⟩
  | cons p ps ih =>
    intro st hwf
    by_cases hemp : (primaryThemes p).isEmpty
    · have hstep : offerPuzzleStrat gkey quota lo hi w inc st p = .ok st := by
        unfold offerPuzzleStrat
        rw [if_pos hemp]
      obtain ⟨st2, hfold, hwf2, hmono, hrep⟩ := ih st hwf
      refine ⟨st2, ?_, hwf2, hmono, ?_⟩
      · rw [List.foldlM_cons, hstep]
        exact hfold
      · intro q hq t ht hinc
        rcases List.mem_cons.mp hq with rfl | hq2
        · rw [List.isEmpty_iff] at hemp
          rw [hemp] at ht
          simp at ht
        · exact hrep q hq2 t ht hinc
    · obtain ⟨hs1, hok1, hwf1, hmono1, hself1⟩ :=
        themesFoldStrat_wf gkey quota inc ⟨gkey p, st.counter, p⟩
          (ratingBinIndex p.rating lo hi w) hquota rfl
          (primaryThemes p) st.heaps hwf
      have hstep : offerPuzzleStrat gkey quota lo hi w inc st p =
          .ok ⟨hs1, st.counter + 1⟩ := by
        unfold offerPuzzleStrat
        rw [if_neg hemp, hok1]
        rfl
      obtain ⟨st2, hfold, hwf2, hmono2, hrep2⟩ :=
        ih ⟨hs1, st.counter + 1⟩ hwf1
      refine ⟨st2, ?_, hwf2,
        fun t b k hk => hmono2 t b k (hmono1 t b k hk), ?_⟩
      · rw [List.foldlM_cons, hstep]
        exact hfold
      · intro q hq t ht hinc
        rcases List.mem_cons.mp hq with rfl | hq2
        · exact hmono2 t (ratingBinIndex q.rating lo hi w) (gkey q)
            (hself1 t ht hinc)
        · exact hrep2 q hq2 t ht hinc

/-! ## Balancer lemmas -/

theorem scanPop_prop (P : Puzzle → Prop) :
    ∀ (r : Nat) (lists : List (Int × List Puzzle)) (nb rr : Int) (i : Nat),
      (∀ kv ∈ lists, ∀ q ∈ kv.2, P q) →
      ∀ p l2 rr2, scanPop lists nb rr i r = some (p, l2, rr2) →
        P p ∧ (∀ kv ∈ l2, ∀ q ∈ kv.2, P q) := by
  intro r
  induction r with
  | zero =>
    intro lists nb rr i hP p l2 rr2 hscan
    simp [scanPop] at hscan
  | succ r ih =>
    intro lists nb rr i hP p l2 rr2 hscan
    rw [scanPop] at hscan
    rcases hget : getAssoc lists ((rr + (i : Int)) % nb) [] with _ | ⟨q, rest⟩
    · rw [hget] at hscan
      exact ih lists nb rr (i + 1) hP p l2 rr2 hscan
    · rw [hget] at hscan
      have heq := Option.some.inj hscan
      simp only [Prod.mk.injEq] at heq
      obtain ⟨rfl, rfl, rfl⟩ := heq
      have hqmem : q ∈ getAssoc lists ((rr + (i : Int)) % nb) [] := by
        rw [hget]
        exact List.mem_cons_self _ _
      obtain ⟨kv, hkv, _, hqkv⟩ := mem_getAssoc_nil lists _ q hqmem
      refine ⟨hP kv hkv q hqkv, ?_⟩
      intro kv2 hkv2 q2 hq2
      rcases mem_setAssoc lists _ rest kv2 hkv2 with rfl | hkv2r
      · have hq2mem : q2 ∈ getAssoc lists ((rr + (i : Int)) % nb) [] := by
          rw [hget]
          exact List.mem_cons_of_mem _ hq2
        obtain ⟨kv3, hkv3, _, hq3⟩ := mem_getAssoc_nil lists _ q2 hq2mem
        exact hP kv3 hkv3 q2 hq3
      · exact hP kv2 hkv2r q2 hq2

theorem balanceLoop_length :
    ∀ (fuel : Nat) (nb topN : Int) (bw bb : List (Int × List Puzzle))
      (w b : Int) (dw : Bool) (rr count : Int) (acc : List Puzzle)
      (fb : Bool), count ≤ topN →
      ((balanceLoop nb topN bw bb w b dw rr count acc fb fuel).1.length :
        Int) ≤ (acc.length : Int) + (topN - count) := by
  intro fuel
  induction fuel with
  | zero =>
    intro nb topN bw bb w b dw rr count acc fb hcount
    show ((acc.length : Int)) ≤ (acc.length : Int) + (topN - count)
    omega
  | succ fuel ih =>
    intro nb topN bw bb w b dw rr count acc fb hcount
    rw [balanceLoop]
    by_cases hlt : count < topN
    · rw [if_pos hlt]
      rcases hscan : scanPop (if dw then bw else bb) nb rr 0 nb.toNat with
        _ | ⟨p, ls, rr2⟩
      · rcases hscan2 : scanPop (if dw then bb else bw) nb rr 0 nb.toNat
          with _ | ⟨p2, ls2, rr3⟩
        · show ((acc.length : Int)) ≤ (acc.length : Int) + (topN - count)
          omega
        · have hrec := ih nb topN (if dw then bw else ls2)
            (if dw then ls2 else bb) (if dw then w else w + 1)
            (if dw then b + 1 else b)
            (decide ((if dw then w else w + 1) ≤
              (if dw then b + 1 else b)))
            rr3 (count + 1) (acc ++ [p2]) true (by omega)
          show ((balanceLoop nb topN (if dw then bw else ls2)
              (if dw then ls2 else bb) (if dw then w else w + 1)
              (if dw then b + 1 else b)
              (decide ((if dw then w else w + 1) ≤
                (if dw then b + 1 else b)))
              rr3 (count + 1) (acc ++ [p2]) true fuel).1.length : Int) ≤
            (acc.length : Int) + (topN - count)
          simp only [List.length_append, List.length_cons,
            List.length_nil] at hrec
          push_cast at hrec ⊢
          omega
      · have hrec := ih nb topN (if dw then ls else bw)
          (if dw then bb else ls) (if dw then w + 1 else w)
          (if dw then b else b + 1)
          (decide ((if dw then w + 1 else w) ≤ (if dw then b else b + 1)))
          rr2 (count + 1) (acc ++ [p]) fb (by omega)
        show ((balanceLoop nb topN (if dw then ls else bw)
            (if dw then bb else ls) (if dw then w + 1 else w)
            (if dw then b else b + 1)
            (decide ((if dw then w + 1 else w) ≤ (if dw then b else b + 1)))
            rr2 (count + 1) (acc ++ [p]) fb fuel).1.length : Int) ≤
          (acc.length : Int) + (topN - count)
        simp only [List.length_append, List.length_cons,
          List.length_nil] at hrec
        push_cast at hrec ⊢
        omega
    · rw [if_neg hlt]
      show ((acc.length : Int)) ≤ (acc.length : Int) + (topN - count)
      omega

theorem balanceLoop_fb_true :
    ∀ (fuel : Nat) (nb topN : Int) (bw bb : List (Int × List Puzzle))
      (w b : Int) (dw : Bool) (rr count : Int) (acc : List Puzzle),
      (balanceLoop nb topN bw bb w b dw rr count acc true fuel).2.2.2 =
        true := by
  intro fuel
  induction fuel with
  | zero =>
    intro nb topN bw bb w b dw rr count acc
    rfl
  | succ fuel ih =>
    intro nb topN bw bb w b dw rr count acc
    rw [balanceLoop]
    by_cases hlt : count < topN
    · rw [if_pos hlt]
      rcases hscan : scanPop (if dw then bw else bb) nb rr 0 nb.toNat with
        _ | ⟨p, ls, rr2⟩
      · rcases hscan2 : scanPop (if dw then bb else bw) nb rr 0 nb.toNat
          with _ | ⟨p2, ls2, rr3⟩
        · rfl
        · exact ih nb topN (if dw then bw else ls2) (if dw then ls2 else bb)
            (if dw then w else w + 1) (if dw then b + 1 else b)
            (decide ((if dw then w else w + 1) ≤
              (if dw then b + 1 else b)))
            rr3 (count + 1) (acc ++ [p2])
      · exact ih nb topN (if dw then ls else bw) (if dw then bb else ls)
          (if dw then w + 1 else w) (if dw then b else b + 1)
          (decide ((if dw then w + 1 else w) ≤ (if dw then b else b + 1)))
          rr2 (count + 1) (acc ++ [p])
    · rw [if_neg hlt]

theorem balanceLoop_balance (cls : Puzzle → Bool) :
    ∀ (fuel : Nat) (nb topN : Int) (bw bb : List (Int × List Puzzle))
      (w b rr count : Int) (acc : List Puzzle),
      (∀ kv ∈ bw, ∀ q ∈ kv.2, cls q = true) →
      (∀ kv ∈ bb, ∀ q ∈ kv.2, cls q = false) →
      w = (acc.countP cls : Int) →
      b = (acc.countP (fun p => !cls p) : Int) →
      (w - b).natAbs ≤ 1 →
      ((balanceLoop nb topN bw bb w b (decide (w ≤ b)) rr count acc false
          fuel).2.2.2 = false →
        ((balanceLoop nb topN bw bb w b (decide (w ≤ b)) rr count acc false
            fuel).2.1 -
         (balanceLoop nb topN bw bb w b (decide (w ≤ b)) rr count acc false
            fuel).2.2.1).natAbs ≤ 1 ∧
        (balanceLoop nb topN bw bb w b (decide (w ≤ b)) rr count acc false
            fuel).2.1 =
          ((balanceLoop nb topN bw bb w b (decide (w ≤ b)) rr count acc
              false fuel).1.countP cls : Int) ∧
        (balanceLoop nb topN bw bb w b (decide (w ≤ b)) rr count acc false
            fuel).2.2.1 =
          ((balanceLoop nb topN bw bb w b (decide (w ≤ b)) rr count acc
              false fuel).1.countP (fun p => !cls p) : Int)) := by
  intro fuel
  induction fuel with
  | zero =>
    intro nb topN bw bb w b rr count acc hbw hbb hw hb habs _
    exact ⟨habs, hw, hb⟩
  | succ fuel ih =>
    intro nb topN bw bb w b rr count acc hbw hbb hw hb habs
    rw [balanceLoop]
    by_cases hlt : count < topN
    · rw [if_pos hlt]
      by_cases hwb : w ≤ b
      · rw [decide_eq_true hwb]
        simp only [eq_self_iff_true, if_true]
        rcases hscan : scanPop bw nb rr 0 nb.toNat with _ | ⟨p, ls, rr2⟩
        · rcases hscan2 : scanPop bb nb rr 0 nb.toNat with _ | ⟨p2, ls2, rr3⟩
          · intro _
            exact ⟨habs, hw, hb⟩
          · intro hfb
            have hmono := balanceLoop_fb_true fuel nb topN bw ls2 w (b + 1)
              (decide (w ≤ b + 1)) rr3 (count + 1) (acc ++ [p2])
            rw [hmono] at hfb
            simp at hfb
        · obtain ⟨hclsp, hls⟩ := scanPop_prop (fun q => cls q = true)
            nb.toNat bw nb rr 0 hbw p ls rr2 hscan
          have hw2 : w + 1 = ((acc ++ [p]).countP cls : Int) := by
            rw [List.countP_append]
            simp [List.countP_cons, hclsp]
            omega
          have hb2 : b = ((acc ++ [p]).countP (fun p => !cls p) : Int) := by
            rw [List.countP_append]
            simp [List.countP_cons, hclsp]
            omega
          have habs2 : (w + 1 - b).natAbs ≤ 1 := by omega
          exact ih nb topN ls bb (w + 1) b rr2 (count + 1) (acc ++ [p])
            hls hbb hw2 hb2 habs2
      · rw [decide_eq_false hwb]
        simp only [Bool.false_eq_true, if_false]
        rcases hscan : scanPop bb nb rr 0 nb.toNat with _ | ⟨p, ls, rr2⟩
        · rcases hscan2 : scanPop bw nb rr 0 nb.toNat with _ | ⟨p2, ls2, rr3⟩
          · intro _
            exact ⟨habs, hw, hb⟩
          · intro hfb
            have hmono := balanceLoop_fb_true fuel nb topN ls2 bb (w + 1) b
              (decide (w + 1 ≤ b)) rr3 (count + 1) (acc ++ [p2])
            rw [hmono] at hfb
            simp at hfb
        · obtain ⟨hclsp, hls⟩ := scanPop_prop (fun q => cls q = false)
            nb.toNat bb nb rr 0 hbb p ls rr2 hscan
          have hw2 : w = ((acc ++ [p]).countP cls : Int) := by
            rw [List.countP_append]
            simp [List.countP_cons, hclsp]
            omega
          have hb2 : b + 1 = ((acc ++ [p]).countP (fun p => !cls p) : Int)
            := by
            rw [List.countP_append]
            simp [List.countP_cons, hclsp]
            omega
          have habs2 : (w - (b + 1)).natAbs ≤ 1 := by omega
          exact ih nb topN bw ls w (b + 1) rr2 (count + 1) (acc ++ [p])
            hbw hls hw2 hb2 habs2
    · rw [if_neg hlt]
      intro _
      exact ⟨habs, hw, hb⟩

/-! ## Glue lemmas connecting the pass state to the emitted output -/

theorem stratHeapsE_ok (gkey : Puzzle → κ) (topN lo hi w : Int)
    (inc : Option (List String)) (stream : List Puzzle) (nb q : Int)
    (st : StratState κ)
    (h : stratHeapsE gkey topN lo hi w inc stream = .ok (nb, q, st)) :
    numBinsE lo hi w = .ok nb ∧ q = perBinQuota topN nb ∧
    stream.foldlM (offerPuzzleStrat gkey (perBinQuota topN nb) lo hi w inc)
      ⟨[], 0⟩ = .ok st := by
  unfold stratHeapsE at h
  rcases hnb : numBinsE lo hi w with e | nb0
  · rw [hnb] at h
    simp [Except.bind] at h
  · rw [hnb] at h
    simp only [Except.bind] at h
    rcases hfold : stream.foldlM
        (offerPuzzleStrat gkey (perBinQuota topN nb0) lo hi w inc)
        (⟨[], 0⟩ : StratState κ) with e | st0
    · rw [hfold] at h
      simp [Except.map] at h
    · rw [hfold] at h
      simp only [Except.map] at h
      have h2 := Except.ok.inj h
      simp only [Prod.mk.injEq] at h2
      obtain ⟨rfl, rfl, rfl⟩ := h2
      exact ⟨rfl, rfl, hfold⟩

theorem selectStrat_out_bind (gkey : Puzzle → κ) (topN lo hi w : Int)
    (inc : Option (List String)) (cls : Puzzle → Bool)
    (stream : List Puzzle) (nb q : Int) (st : StratState κ)
    (h : stratHeapsE gkey topN lo hi w inc stream = .ok (nb, q, st)) :
    selectStratifiedE gkey topN lo hi w inc cls stream =
      .ok (st.heaps.flatMap
        (fun th => (balanceTheme nb topN cls th.2).1.map
          (fun p => (th.1, p)))) := by
  unfold selectStratifiedE
  rw [h]
  show Except.ok (st.heaps.foldl
      (fun acc th =>
        acc ++ (balanceTheme nb topN cls th.2).1.map (fun p => (th.1, p)))
      []) = _
  rw [foldl_append_eq_bind
    (fun th => (balanceTheme nb topN cls th.2).1.map (fun p => (th.1, p)))
    st.heaps []]
  rw [List.nil_append]

theorem rep_in_flat_out (gkey : Puzzle → κ) (cap : Int) (st : FlatState κ)
    (hwf : HeapsWF gkey cap st.heaps) (t : String) (k : κ)
    (hrep : ∃ q ∈ getAssoc st.heaps t [], k ≤ q.key) :
    ∃ q : Puzzle,
      (t, q) ∈ st.heaps.flatMap
        (fun th => (drainDesc th.2).map (fun e => (th.1, e.puzzle))) ∧
      k ≤ gkey q := by
  obtain ⟨ent, hent, hk⟩ := hrep
  obtain ⟨kv, hkv, hkvt, hentkv⟩ := mem_getAssoc_nil st.heaps t ent hent
  have hkey := (hwf.2 kv hkv).2.2 ent hentkv
  refine ⟨ent.puzzle, ?_, by rw [← hkey]; exact hk⟩
  refine List.mem_flatMap.mpr ⟨kv, hkv, ?_⟩
  rw [← hkvt]
  exact List.mem_map.mpr
    ⟨ent, (drainDesc_perm kv.2).mem_iff.mpr hentkv, rfl⟩

/-! ## Claim theorems -/

/-- C1: For every stream of records and every (positive, as required by the
capacity precondition of §4.2) capacity — `top_n_per_theme` in flat mode,
`per_bin_quota` in stratified mode — each per-category (or per
category-and-bin) heap holds at most that many entries at every point of
the pass; an offer inserts unconditionally while the heap is below
capacity, and on a full heap evicts a minimum-key entry exactly when the
incoming key is strictly greater, discarding ties and smaller keys;
consequently every category's final output holds at most
`top_n_per_theme` entries, in both modes. -/
theorem claim_C1 {κ : Type} [LinearOrder κ] (gkey : Puzzle → κ)
    (topN lo hi w : Int) (inc : Option (List String))
    (stream : List Puzzle) (hcap : 1 ≤ topN) :
    (∀ (s₁ s₂ : List Puzzle) (st : FlatState κ), stream = s₁ ++ s₂ →
      flatHeapsE gkey topN inc s₁ = .ok st →
      ∀ kv ∈ st.heaps, (kv.2.length : Int) ≤ topN) ∧
    (∀ (heap : List (Entry κ)) (e : Entry κ), HeapInv heap →
      (heap.length : Int) < topN →
      offerE topN heap e = .ok (heappushPy heap e) ∧
      (heappushPy heap e).Perm (heap ++ [e])) ∧
    (∀ (heap : List (Entry κ)) (e m : Entry κ) (t : List (Entry κ)),
      HeapInv heap → heap = m :: t → ¬ ((heap.length : Int) < topN) →
      (∀ x ∈ heap, m.key ≤ x.key) ∧
      (m.key < e.key →
        ∃ r, offerE topN heap e = .ok r ∧ r.Perm (e :: t)) ∧
      (¬ m.key < e.key → offerE topN heap e = .ok heap)) ∧
    (∀ (s₁ s₂ : List Puzzle) (nb q : Int) (st : StratState κ),
      stream = s₁ ++ s₂ →
      stratHeapsE gkey topN lo hi w inc s₁ = .ok (nb, q, st) →
      ∀ kv ∈ st.heaps, ∀ bh ∈ kv.2, (bh.2.length : Int) ≤ q) ∧
    (∀ out, selectFlatE gkey topN inc stream = .ok out →
      ∀ t : String, ((out.filter (fun tp => tp.1 = t)).length : Int) ≤
        topN) ∧
    (∀ (cls : Puzzle → Bool) out,
      selectStratifiedE gkey topN lo hi w inc cls stream = .ok out →
      ∀ t : String, ((out.filter (fun tp => tp.1 = t)).length : Int) ≤
        topN) := by
  have hinit : HeapsWF gkey topN ([] : List (String × List (Entry κ))) :=
    ⟨List.nodup_nil, fun kv hkv => absurd hkv (List.not_mem_nil kv)⟩
  refine ⟨?_, ?_, ?_, ?_, ?_, ?_⟩
  · intro s₁ s₂ st hsplit hfold
    obtain ⟨st2, hfold2, hwf2, _, _⟩ :=
      flatFoldStream_wf gkey topN inc hcap s₁ ⟨[], 0⟩ hinit
    unfold flatHeapsE at hfold
    rw [hfold2] at hfold
    obtain rfl := (Except.ok.inj hfold).symm
    intro kv hkv
    exact (hwf2.2 kv hkv).2.1
  · intro heap e hinv hlt
    obtain ⟨heq, _, hperm⟩ := (offerE_spec topN heap e hinv).1 hlt
    exact ⟨heq, hperm⟩
  · intro heap e m t hinv hht hfull
    obtain ⟨hmin, hrep, hdis⟩ := (offerE_spec topN heap e hinv).2 m t hht
      hfull
    refine ⟨hmin, ?_, hdis⟩
    intro hklt
    obtain ⟨heq, _, hperm⟩ := hrep hklt
    exact ⟨heapreplacePy heap e, heq, hperm⟩
  · intro s₁ s₂ nb q st hsplit hstrat
    obtain ⟨hnbeq, hqeq, hfold⟩ :=
      stratHeapsE_ok gkey topN lo hi w inc s₁ nb q st hstrat
    have hq1 : 1 ≤ perBinQuota topN nb := le_max_left 1 _
    obtain ⟨st2, hfold2, hwf2, _, _⟩ :=
      stratFoldStream_wf gkey (perBinQuota topN nb) lo hi w inc hq1 s₁
        ⟨[], 0⟩ ⟨List.nodup_nil, fun kv hkv => absurd hkv
          (List.not_mem_nil kv)⟩
    rw [hfold2] at hfold
    obtain rfl := (Except.ok.inj hfold).symm
    intro kv hkv bh hbh
    rw [hqeq]
    exact ((hwf2.2 kv hkv).2 bh hbh).2.1
  · intro out hout t
    obtain ⟨st2, hfold2, hwf2, _, _⟩ :=
      flatFoldStream_wf gkey topN inc hcap stream ⟨[], 0⟩ hinit
    have hbind := selectFlat_out_bind gkey topN inc stream st2 hfold2
    rw [hout] at hbind
    obtain rfl := (Except.ok.inj hbind)
    have hf : ∀ (kv : String × List (Entry κ)) (y : String × Puzzle),
        y ∈ (drainDesc kv.2).map (fun e => (kv.1, e.puzzle)) →
        y.1 = kv.1 := by
      intro kv y hy
      obtain ⟨e, _, rfl⟩ := List.mem_map.mp hy
      rfl
    rcases filter_bind_cases _ (fun kv y hy => hf kv y hy) st2.heaps
        hwf2.1 t with hnil | ⟨kv, hkv, _, heq⟩
    · rw [hnil]
      simp only [List.length_nil, Int.natCast_zero]
      omega
    · rw [heq]
      rw [List.length_map]
      rw [(drainDesc_perm kv.2).length_eq]
      exact (hwf2.2 kv hkv).2.1
  · intro cls out hout t
    rcases hstrat : stratHeapsE gkey topN lo hi w inc stream with e |
      ⟨nb, q, st⟩
    · unfold selectStratifiedE at hout
      rw [hstrat] at hout
      simp [Except.map] at hout
    · obtain ⟨hnbeq, hqeq, hfold⟩ :=
        stratHeapsE_ok gkey topN lo hi w inc stream nb q st hstrat
      have hq1 : 1 ≤ perBinQuota topN nb := le_max_left 1 _
      obtain ⟨st2, hfold2, hwf2, _, _⟩ :=
        stratFoldStream_wf gkey (perBinQuota topN nb) lo hi w inc hq1
          stream ⟨[], 0⟩ ⟨List.nodup_nil, fun kv hkv => absurd hkv
            (List.not_mem_nil kv)⟩
      rw [hfold2] at hfold
      obtain rfl := (Except.ok.inj hfold).symm
      have hbind := selectStrat_out_bind gkey topN lo hi w inc cls stream
        nb q st hstrat
      rw [hout] at hbind
      obtain rfl := (Except.ok.inj hbind)
      have hf : ∀ (kv : String × List (Int × List (Entry κ)))
          (y : String × Puzzle),
          y ∈ (balanceTheme nb topN cls kv.2).1.map (fun p => (kv.1, p)) →
          y.1 = kv.1 := by
        intro kv y hy
        obtain ⟨p, _, rfl⟩ := List.mem_map.mp hy
        rfl
      rcases filter_bind_cases _ (fun kv y hy => hf kv y hy) st.heaps
          hwf2.1 t with hnil | ⟨kv, hkv, _, heq⟩
      · rw [hnil]
        simp only [List.length_nil, Int.natCast_zero]
        omega
      · rw [heq]
        rw [List.length_map]
        have hlen := balanceLoop_length (topN.toNat + 1) nb topN
          (splitByColor cls (kv.2.map (fun b => (b.1, drainDesc b.2)))).1
          (splitByColor cls (kv.2.map (fun b => (b.1, drainDesc b.2)))).2
          0 0 true 0 0 [] false (by omega)
        simp only [List.length_nil, Int.natCast_zero] at hlen
        calc ((balanceTheme nb topN cls kv.2).1.length : Int) ≤
            0 + (topN - 0) := hlen
          _ ≤ topN := by omega

/-- Witness for C1 at a concrete run: quota 2 is positive, and the flat
selection of three `mate` puzzles emits at most two of them. -/
theorem claim_C1_witness :
    (1 : Int) ≤ 2 ∧
    selectFlatE (fun p : Puzzle => p.popularity) 2 none
      [mkPuzzle "a" 700 90 ["mate"], mkPuzzle "b" 700 95 ["mate"],
       mkPuzzle "c" 700 99 ["mate"]] =
      .ok [("mate", mkPuzzle "c" 700 99 ["mate"]),
           ("mate", mkPuzzle "b" 700 95 ["mate"])] ∧
    ((([("mate", mkPuzzle "c" 700 99 ["mate"]),
        ("mate", mkPuzzle "b" 700 95 ["mate"])].filter
          (fun tp => tp.1 = "mate")).length : Int) ≤ 2) :=
  ⟨by norm_num, by decide,
    (claim_C1 (fun p : Puzzle => p.popularity) 2 600 800 5 none
      [mkPuzzle "a" 700 90 ["mate"], mkPuzzle "b" 700 95 ["mate"],
       mkPuzzle "c" 700 99 ["mate"]] (by norm_num)).2.2.2.2.1
      [("mate", mkPuzzle "c" 700 99 ["mate"]),
       ("mate", mkPuzzle "b" 700 95 ["mate"])] (by decide) "mate"⟩

/-- Counterexample to C2 (stratified clause): with range [600, 609], bin
width 5 (two bins), quota 3 and per-bin quota 2, the black record `s`
(key 10, bin 0) is retained by bin 0's heap but dropped by the colour
balancer, while the white record `r` (key 1) from the same bin is emitted:
a record absent from the final output has a key strictly greater than every
record present in the output for its (category, bin). -/
theorem claim_C2_counterexample :
    selectStratifiedE (fun p : Puzzle => p.popularity) 3 600 609 5 none
      (fun p => p.puzzle_id == "r" || p.puzzle_id == "u")
      [mkPuzzle "r" 600 1 ["t"], mkPuzzle "s" 600 10 ["t"],
       mkPuzzle "u" 605 9 ["t"], mkPuzzle "v" 605 8 ["t"]] =
      .ok [("t", mkPuzzle "r" 600 1 ["t"]),
           ("t", mkPuzzle "v" 605 8 ["t"]),
           ("t", mkPuzzle "u" 605 9 ["t"])] ∧
    mkPuzzle "s" 600 10 ["t"] ∈
      [mkPuzzle "r" 600 1 ["t"], mkPuzzle "s" 600 10 ["t"],
       mkPuzzle "u" 605 9 ["t"], mkPuzzle "v" 605 8 ["t"]] ∧
    "t" ∈ primaryThemes (mkPuzzle "s" 600 10 ["t"]) ∧
    ratingBinIndex (mkPuzzle "s" 600 10 ["t"]).rating 600 609 5 = 0 ∧
    ("t", mkPuzzle "s" 600 10 ["t"]) ∉
      [("t", mkPuzzle "r" 600 1 ["t"]), ("t", mkPuzzle "v" 605 8 ["t"]),
       ("t", mkPuzzle "u" 605 9 ["t"])] ∧
    (∀ tp ∈ [("t", mkPuzzle "r" 600 1 ["t"]),
             ("t", mkPuzzle "v" 605 8 ["t"]),
             ("t", mkPuzzle "u" 605 9 ["t"])],
      tp.1 = "t" → ratingBinIndex tp.2.rating 600 609 5 = 0 →
      tp.2.popularity < (mkPuzzle "s" 600 10 ["t"]).popularity) := by
  decide

/-- C2 as amended: in flat mode the claim holds as stated — a stream record
of an allow-listed category absent from the final output never has a key
strictly greater than every record emitted for that category.  In
stratified mode the guarantee holds at the heap stage: at the end of the
pass, every stream record is dominated by some entry still held in its
(category, bin) heap; the colour balancer may however drop such a retained
record (see the counterexample), so the final-output form fails. -/
theorem claim_C2_amended {κ : Type} [LinearOrder κ] (gkey : Puzzle → κ)
    (topN lo hi w : Int) (inc : Option (List String))
    (stream : List Puzzle) (hcap : 1 ≤ topN) :
    (∀ out, selectFlatE gkey topN inc stream = .ok out →
      ∀ p ∈ stream, ∀ t ∈ primaryThemes p, includeOk inc t = true →
        (t, p) ∉ out → ∃ q : Puzzle, (t, q) ∈ out ∧ gkey p ≤ gkey q) ∧
    (∀ (nb q : Int) (st : StratState κ),
      stratHeapsE gkey topN lo hi w inc stream = .ok (nb, q, st) →
      ∀ p ∈ stream, ∀ t ∈ primaryThemes p, includeOk inc t = true →
        ∃ e ∈ getAssoc (getAssoc st.heaps t [])
          (ratingBinIndex p.rating lo hi w) [], gkey p ≤ e.key) := by
  have hinit : HeapsWF gkey topN ([] : List (String × List (Entry κ))) :=
    ⟨List.nodup_nil, fun kv hkv => absurd hkv (List.not_mem_nil kv)⟩
  constructor
  · intro out hout p hp t ht hinc _
    obtain ⟨st2, hfold2, hwf2, _, hrep⟩ :=
      flatFoldStream_wf gkey topN inc hcap stream ⟨[], 0⟩ hinit
    have hbind := selectFlat_out_bind gkey topN inc stream st2 hfold2
    rw [hout] at hbind
    obtain rfl := Except.ok.inj hbind
    exact rep_in_flat_out gkey topN st2 hwf2 t (gkey p)
      (hrep p hp t ht hinc)
  · intro nb q st hstrat p hp t ht hinc
    obtain ⟨hnbeq, hqeq, hfold⟩ :=
      stratHeapsE_ok gkey topN lo hi w inc stream nb q st hstrat
    have hq1 : 1 ≤ perBinQuota topN nb := le_max_left 1 _
    obtain ⟨st2, hfold2, hwf2, _, hrep⟩ :=
      stratFoldStream_wf gkey (perBinQuota topN nb) lo hi w inc hq1
        stream ⟨[], 0⟩ ⟨List.nodup_nil, fun kv hkv => absurd hkv
          (List.not_mem_nil kv)⟩
    rw [hfold2] at hfold
    obtain rfl := (Except.ok.inj hfold).symm
    exact hrep p hp t ht hinc

/-- Witness for the amended C2 at a concrete run: with quota 1 the record
`a` (key 90) is dropped but the emitted record `b` dominates it. -/
theorem claim_C2_witness :
    (1 : Int) ≤ 1 ∧
    (∃ q : Puzzle, ("mate", q) ∈ [("mate", mkPuzzle "b" 700 95 ["mate"])] ∧
      (mkPuzzle "a" 700 90 ["mate"]).popularity ≤ q.popularity) :=
  ⟨by norm_num,
    (claim_C2_amended (fun p : Puzzle => p.popularity) 1 600 800 5 none
      [mkPuzzle "a" 700 90 ["mate"], mkPuzzle "b" 700 95 ["mate"]]
      (by norm_num)).1
      [("mate", mkPuzzle "b" 700 95 ["mate"])] (by decide)
      (mkPuzzle "a" 700 90 ["mate"]) (by decide) "mate" (by decide)
      (by decide) (by decide)⟩

/-- Counterexample to C3: a non-positive flat quota is not validated at
setup — the run succeeds on an empty stream and raises `IndexError` only
when the first allow-listed record is offered; a stratified configuration
with min rating above max rating proceeds silently and even emits output;
a negative bin width proceeds silently and drops every in-range record. -/
theorem claim_C3_counterexample :
    selectFlatE (fun p : Puzzle => p.popularity) 0 none ([] : List Puzzle) =
      .ok [] ∧
    selectFlatE (fun p : Puzzle => p.popularity) 0 none
      [mkPuzzle "a" 700 90 ["mate"]] = .error "IndexError" ∧
    selectStratifiedE (fun p : Puzzle => p.popularity) 4 800 600 5 none
      (fun _ => true) [mkPuzzle "a" 700 90 ["mate"]] =
      .ok [("mate", mkPuzzle "a" 700 90 ["mate"])] ∧
    selectStratifiedE (fun p : Puzzle => p.popularity) 4 600 800 (-5) none
      (fun _ => true) [mkPuzzle "a" 700 90 ["mate"]] = .ok [] := by
  refine ⟨rfl, by decide, by decide, by decide⟩

/-- C3 as amended: the only configuration check performed at setup is the
stratified bin-width zero test, which fails with `ZeroDivisionError` before
any record of the stream is examined (the error is independent of the
stream); the flat selector performs no setup validation at all — with an
empty stream it succeeds for every quota.  The remaining invalid
combinations of the claim are not rejected at setup (see the
counterexample). -/
theorem claim_C3_amended {κ : Type} [LinearOrder κ] (gkey : Puzzle → κ)
    (topN lo hi : Int) (inc : Option (List String)) (cls : Puzzle → Bool)
    (stream : List Puzzle) :
    selectStratifiedE gkey topN lo hi 0 inc cls stream =
      .error "ZeroDivisionError" ∧
    selectFlatE gkey topN inc ([] : List Puzzle) = .ok [] :=
  ⟨rfl, rfl⟩

/-- Counterexample to C4: with range [600, 800] and bin width 5 the setup
computes `max(1, ceil(201 / 5)) = 41` bins, not 40 — the range spans 201
rating values, not 200. -/
theorem claim_C4_counterexample :
    numBinsE 600 800 5 = .ok 41 ∧ ¬ numBinsE 600 800 5 = .ok 40 := by
  decide

/-- C4 as amended: with range [600, 800], bin width 5 and per-theme quota
4 the setup yields 41 bins (not 40) and a per-bin quota of 1; and for four
same-theme records landing in four distinct bins, all four appear in the
final output whatever their popularities and whatever binary attribute the
classifier assigns to each of them (all 16 classifications). -/
theorem claim_C4_amended :
    numBinsE 600 800 5 = .ok 41 ∧ perBinQuota 4 41 = 1 ∧
    (∀ c1 c2 c3 c4 : Bool,
      ∀ id ∈ ["a", "b", "c", "d"],
        id ∈ (okList (selectStratifiedE (fun p : Puzzle => p.popularity)
          4 600 800 5 none
          (fun p =>
            if p.puzzle_id == "a" then c1
            else if p.puzzle_id == "b" then c2
            else if p.puzzle_id == "c" then c3
            else c4)
          [mkPuzzle "a" 600 100 ["t"], mkPuzzle "b" 605 1 ["t"],
           mkPuzzle "c" 610 2 ["t"], mkPuzzle "d" 615 3 ["t"]])).map
          (fun tp => tp.2.puzzle_id)) := by
  refine ⟨by decide, by decide, by decide⟩

/-- Counterexample to C5: a record whose first-move push fails (the push
oracle returns `none`) is not excluded from balancing — `starts_white`
falls back to the side to move of the unmodified FEN, so the record is
still assigned to an attribute bucket (here the white bucket). -/
theorem claim_C5_counterexample :
    starts_white true (fun _ => none) (fun _ => true)
      (mkPuzzle "x" 600 50 ["t"]) = true ∧
    (splitByColor (starts_white true (fun _ => none) (fun _ => true))
      [((0 : Int), [(⟨(50 : Int), 0, mkPuzzle "x" 600 50 ["t"]⟩ :
        Entry Int)])]).1 = [((0 : Int), [mkPuzzle "x" 600 50 ["t"]])] ∧
    (splitByColor (starts_white true (fun _ => none) (fun _ => true))
      [((0 : Int), [(⟨(50 : Int), 0, mkPuzzle "x" 600 50 ["t"]⟩ :
        Entry Int)])]).2 = [((0 : Int), [])] := by
  decide

/-- C5 as amended: when presenting after the opponent's first move and the
push of the first move fails, the record is classified by the side to move
of its unmodified FEN — it is not dropped: it lands in the white bucket of
its bin when that side is White, and in the black bucket otherwise. -/
theorem claim_C5_amended (pushT : Puzzle → Option Bool)
    (fenT : Puzzle → Bool) (p : Puzzle) (hm : p.moves_uci ≠ [])
    (hp : pushT p = none) (bins : List (Int × List (Entry Int)))
    (kv : Int × List (Entry Int)) (e : Entry Int) (hkv : kv ∈ bins)
    (he : e ∈ kv.2) (hep : e.puzzle = p) :
    starts_white true pushT fenT p = fenT p ∧
    (fenT p = true →
      ∃ kv2 ∈ (splitByColor (starts_white true pushT fenT) bins).1,
        p ∈ kv2.2) ∧
    (fenT p = false →
      ∃ kv2 ∈ (splitByColor (starts_white true pushT fenT) bins).2,
        p ∈ kv2.2) := by
  obtain ⟨m, ms, hml⟩ := List.exists_cons_of_ne_nil hm
  have h1 : starts_white true pushT fenT p = fenT p := by
    unfold starts_white
    rw [hml, hp]
    rfl
  refine ⟨h1, ?_, ?_⟩
  · intro hft
    refine ⟨(kv.1, (kv.2.map Entry.puzzle).filter
        (starts_white true pushT fenT)), ?_, ?_⟩
    · exact List.mem_map_of_mem _ hkv
    · exact List.mem_filter.mpr
        ⟨List.mem_map.mpr ⟨e, he, hep⟩, by rw [h1]; exact hft⟩
  · intro hff
    refine ⟨(kv.1, (kv.2.map Entry.puzzle).filter
        (fun q => !starts_white true pushT fenT q)), ?_, ?_⟩
    · exact List.mem_map_of_mem _ hkv
    · exact List.mem_filter.mpr
        ⟨List.mem_map.mpr ⟨e, he, hep⟩, by simp [h1, hff]⟩

/-- Witness for the amended C5 at a concrete failing push: the record falls
back to its FEN side (White) and lands in the white bucket. -/
theorem claim_C5_witness :
    starts_white true (fun _ => none) (fun _ => true)
      (mkPuzzle "x" 600 50 ["t"]) =
      (fun _ : Puzzle => true) (mkPuzzle "x" 600 50 ["t"]) ∧
    ((fun _ : Puzzle => true) (mkPuzzle "x" 600 50 ["t"]) = true →
      ∃ kv2 ∈ (splitByColor (starts_white true (fun _ => none)
          (fun _ => true))
        [((0 : Int), [(⟨(50 : Int), 0, mkPuzzle "x" 600 50 ["t"]⟩ :
          Entry Int)])]).1, mkPuzzle "x" 600 50 ["t"] ∈ kv2.2) ∧
    ((fun _ : Puzzle => true) (mkPuzzle "x" 600 50 ["t"]) = false →
      ∃ kv2 ∈ (splitByColor (starts_white true (fun _ => none)
          (fun _ => true))
        [((0 : Int), [(⟨(50 : Int), 0, mkPuzzle "x" 600 50 ["t"]⟩ :
          Entry Int)])]).2, mkPuzzle "x" 600 50 ["t"] ∈ kv2.2) :=
  claim_C5_amended (fun _ => none) (fun _ => true)
    (mkPuzzle "x" 600 50 ["t"]) (by decide) rfl
    [((0 : Int), [(⟨(50 : Int), 0, mkPuzzle "x" 600 50 ["t"]⟩ :
      Entry Int)])]
    ((0 : Int), [(⟨(50 : Int), 0, mkPuzzle "x" 600 50 ["t"]⟩ : Entry Int)])
    (⟨(50 : Int), 0, mkPuzzle "x" 600 50 ["t"]⟩ : Entry Int)
    (by decide) (by decide) rfl

/-- Counterexample to C6: with popularity as the key and capacity 6, the
records `e` and `f` tie on key 5 with `e` seen before `f`, yet the drained
output lists `f` before `e` — the drain follows the backing-array order of
the heap for ties, not ascending sequence number.  (The heap array after
the six pushes is `[1, 2, 5, 3, 5, 9]`-keyed with `f` sifted above `e`.) -/
theorem claim_C6_counterexample :
    selectFlatE (fun p : Puzzle => p.popularity) 6 none
      [mkPuzzle "a" 600 1 ["t"], mkPuzzle "b" 600 2 ["t"],
       mkPuzzle "c" 600 9 ["t"], mkPuzzle "d" 600 3 ["t"],
       mkPuzzle "e" 600 5 ["t"], mkPuzzle "f" 600 5 ["t"]] =
      .ok [("t", mkPuzzle "c" 600 9 ["t"]), ("t", mkPuzzle "f" 600 5 ["t"]),
           ("t", mkPuzzle "e" 600 5 ["t"]), ("t", mkPuzzle "d" 600 3 ["t"]),
           ("t", mkPuzzle "b" 600 2 ["t"]),
           ("t", mkPuzzle "a" 600 1 ["t"])] ∧
    (mkPuzzle "e" 600 5 ["t"]).popularity =
      (mkPuzzle "f" 600 5 ["t"]).popularity ∧
    mkPuzzle "e" 600 5 ["t"] ≠ mkPuzzle "f" 600 5 ["t"] := by
  decide

/-- C6 as amended: draining returns all held entries (a permutation of the
backing array) ordered by key descending, and the sort is stable over the
backing array: whenever `a` precedes `b` in the array with `a`'s key at
least `b`'s — in particular on key ties — `a` still precedes `b` in the
drained list.  The tie order is the heap's array order, not ascending
sequence number. -/
theorem claim_C6_amended {κ : Type} [LinearOrder κ]
    (heap : List (Entry κ)) :
    (drainDesc heap).Perm heap ∧ (drainDesc heap).Sorted keyGE ∧
    (∀ a b : Entry κ, b.key ≤ a.key → [a, b].Sublist heap →
      [a, b].Sublist (drainDesc heap)) := by
  refine ⟨drainDesc_perm heap, drainDesc_sorted heap, ?_⟩
  intro a b hab hsub
  exact List.pair_sublist_insertionSort hab hsub

/-- Witness for the amended C6: on a two-entry tie the array order is kept
by the drain. -/
theorem claim_C6_witness :
    ((5 : Int) ≤ (5 : Int) ∧
      [(⟨(5 : Int), 0, mkPuzzle "e" 600 5 ["t"]⟩ : Entry Int),
       ⟨(5 : Int), 1, mkPuzzle "f" 600 5 ["t"]⟩].Sublist
        [(⟨(5 : Int), 0, mkPuzzle "e" 600 5 ["t"]⟩ : Entry Int),
         ⟨(5 : Int), 1, mkPuzzle "f" 600 5 ["t"]⟩]) ∧
    [(⟨(5 : Int), 0, mkPuzzle "e" 600 5 ["t"]⟩ : Entry Int),
     ⟨(5 : Int), 1, mkPuzzle "f" 600 5 ["t"]⟩].Sublist
      (drainDesc [(⟨(5 : Int), 0, mkPuzzle "e" 600 5 ["t"]⟩ : Entry Int),
        ⟨(5 : Int), 1, mkPuzzle "f" 600 5 ["t"]⟩]) :=
  ⟨⟨by decide, by decide⟩,
    (claim_C6_amended [⟨(5 : Int), 0, mkPuzzle "e" 600 5 ["t"]⟩,
        ⟨(5 : Int), 1, mkPuzzle "f" 600 5 ["t"]⟩]).2.2
      ⟨(5 : Int), 0, mkPuzzle "e" 600 5 ["t"]⟩
      ⟨(5 : Int), 1, mkPuzzle "f" 600 5 ["t"]⟩ (by decide) (by decide)⟩

/-- C7 confirmed: whenever the balancer finishes a theme without ever
taking its opposite-colour fallback branch (the desired attribute was
available at every pick), the final colour counts are the true counts of
the picked list and differ by at most one.  The desired colour starts at
White (`true = decide (0 ≤ 0)`, ties favouring White) and is recomputed
after every pick to the colour with the lower count. -/
theorem claim_C7 {κ : Type} [LinearOrder κ] (nb topN : Int)
    (cls : Puzzle → Bool) (bins : List (Int × List (Entry κ)))
    (h : (balanceTheme nb topN cls bins).2.2.2 = false) :
    ((balanceTheme nb topN cls bins).2.1 -
      (balanceTheme nb topN cls bins).2.2.1).natAbs ≤ 1 ∧
    (balanceTheme nb topN cls bins).2.1 =
      ((balanceTheme nb topN cls bins).1.countP cls : Int) ∧
    (balanceTheme nb topN cls bins).2.2.1 =
      ((balanceTheme nb topN cls bins).1.countP (fun p => !cls p) : Int) := by
  have hbw : ∀ kv ∈ (splitByColor cls
      (bins.map (fun b => (b.1, drainDesc b.2)))).1,
      ∀ q ∈ kv.2, cls q = true := by
    intro kv hkv q hq
    obtain ⟨b0, _, rfl⟩ := List.mem_map.mp hkv
    exact List.of_mem_filter hq
  have hbb : ∀ kv ∈ (splitByColor cls
      (bins.map (fun b => (b.1, drainDesc b.2)))).2,
      ∀ q ∈ kv.2, cls q = false := by
    intro kv hkv q hq
    obtain ⟨b0, _, rfl⟩ := List.mem_map.mp hkv
    simpa using List.of_mem_filter hq
  have key := balanceLoop_balance cls (topN.toNat + 1) nb topN
    ((splitByColor cls (bins.map (fun b => (b.1, drainDesc b.2)))).1)
    ((splitByColor cls (bins.map (fun b => (b.1, drainDesc b.2)))).2)
    0 0 0 0 [] hbw hbb rfl rfl (by decide)
  exact key h

/-- Witness for C7: a two-bin theme with one white and one black candidate
is balanced without the fallback branch, and the counts differ by one at
most. -/
theorem claim_C7_witness :
    (balanceTheme 2 2 (fun p => p.puzzle_id == "w1")
      [((0 : Int), [(⟨(5 : Int), 0, mkPuzzle "w1" 600 5 ["t"]⟩ :
          Entry Int)]),
       ((1 : Int), [(⟨(4 : Int), 1, mkPuzzle "b1" 605 4 ["t"]⟩ :
          Entry Int)])]).2.2.2 = false ∧
    ((balanceTheme 2 2 (fun p => p.puzzle_id == "w1")
      [((0 : Int), [(⟨(5 : Int), 0, mkPuzzle "w1" 600 5 ["t"]⟩ :
          Entry Int)]),
       ((1 : Int), [(⟨(4 : Int), 1, mkPuzzle "b1" 605 4 ["t"]⟩ :
          Entry Int)])]).2.1 -
     (balanceTheme 2 2 (fun p => p.puzzle_id == "w1")
      [((0 : Int), [(⟨(5 : Int), 0, mkPuzzle "w1" 600 5 ["t"]⟩ :
          Entry Int)]),
       ((1 : Int), [(⟨(4 : Int), 1, mkPuzzle "b1" 605 4 ["t"]⟩ :
          Entry Int)])]).2.2.1).natAbs ≤ 1 :=
  ⟨by decide, (claim_C7 2 2 (fun p => p.puzzle_id == "w1")
    [((0 : Int), [(⟨(5 : Int), 0, mkPuzzle "w1" 600 5 ["t"]⟩ : Entry Int)]),
     ((1 : Int), [(⟨(4 : Int), 1, mkPuzzle "b1" 605 4 ["t"]⟩ : Entry Int)])]
    (by decide)).1⟩

/-- C8 refuted (code bug): the normalisation `val / 0xFFFFFFFF - 0.5`
divides by `2^32 - 1`, not `2^32`, so the hash-prefix value `0xFFFFFFFF`
is mapped to exactly `0.5` — the jitter's range is the closed interval
`[-0.5, 0.5]`, not the half-open `[-0.5, 0.5)` the docstring and the spec
state.  The division and subtraction are exact in IEEE binary64 at both
extremal inputs, so the idealised rational computation agrees with the
source there. -/
theorem claim_C8 :
    stableNoiseVal 4294967295 = 1 / 2 ∧
    ¬ stableNoiseVal 4294967295 < 1 / 2 ∧
    stableNoiseVal 0 = -(1 / 2) ∧
    (∀ v : ℕ, v ≤ 4294967295 →
      -(1 / 2) ≤ stableNoiseVal v ∧ stableNoiseVal v ≤ 1 / 2) := by
  refine ⟨by norm_num [stableNoiseVal], by norm_num [stableNoiseVal],
    by norm_num [stableNoiseVal], ?_⟩
  intro v hv
  unfold stableNoiseVal
  constructor
  · have h0 : (0 : ℚ) ≤ (v : ℚ) / 0xFFFFFFFF := by positivity
    linarith
  · have h1 : (v : ℚ) / 0xFFFFFFFF ≤ 1 := by
      rw [div_le_one (by norm_num)]
      exact_mod_cast hv
    linarith

/-- Witness for C8's bounds clause at the failing input `0xFFFFFFFF`. -/
theorem claim_C8_witness :
    (4294967295 : ℕ) ≤ 4294967295 ∧
    (-(1 / 2) ≤ stableNoiseVal 4294967295 ∧
      stableNoiseVal 4294967295 ≤ 1 / 2) :=
  ⟨le_refl _, claim_C8.2.2.2 4294967295 (le_refl _)⟩

/-- C9 confirmed: both selection entry points are pure functions of the
stream, the configuration and the scoring key (the salt enters only
through the key), so two runs on equal inputs produce identical
(category, record-identifier) output sequences, including category order
and in-category order. -/
theorem claim_C9 {κ : Type} [LinearOrder κ] (gkey : Puzzle → κ)
    (topN lo hi w : Int) (inc : Option (List String)) (cls : Puzzle → Bool)
    (s₁ s₂ : List Puzzle) (h : s₁ = s₂) :
    (selectFlatE gkey topN inc s₁).map
        (fun l => l.map (fun tp => (tp.1, tp.2.puzzle_id))) =
      (selectFlatE gkey topN inc s₂).map
        (fun l => l.map (fun tp => (tp.1, tp.2.puzzle_id))) ∧
    (selectStratifiedE gkey topN lo hi w inc cls s₁).map
        (fun l => l.map (fun tp => (tp.1, tp.2.puzzle_id))) =
      (selectStratifiedE gkey topN lo hi w inc cls s₂).map
        (fun l => l.map (fun tp => (tp.1, tp.2.puzzle_id))) := by
  subst h
  exact ⟨rfl, rfl⟩

/-- Witness for C9 at a concrete stream compared with itself. -/
theorem claim_C9_witness :
    [mkPuzzle "a" 700 90 ["mate"]] = [mkPuzzle "a" 700 90 ["mate"]] ∧
    (selectFlatE (fun p : Puzzle => p.popularity) 2 none
        [mkPuzzle "a" 700 90 ["mate"]]).map
        (fun l => l.map (fun tp => (tp.1, tp.2.puzzle_id))) =
      (selectFlatE (fun p : Puzzle => p.popularity) 2 none
        [mkPuzzle "a" 700 90 ["mate"]]).map
        (fun l => l.map (fun tp => (tp.1, tp.2.puzzle_id))) :=
  ⟨rfl, (claim_C9 (fun p : Puzzle => p.popularity) 2 600 800 5 none
    (fun _ => true) [mkPuzzle "a" 700 90 ["mate"]]
    [mkPuzzle "a" 700 90 ["mate"]] rfl).1⟩

/-- C10 confirmed: `app/main.py` line 8 imports
`process_all_puzzles_by_theme_streaming` from `app.puzzles`, which defines
no such name, so importing `app.main` raises before any argument parsing;
independently, `main` passes the keyword arguments `min_popularity` and
`min_plays` to `build_puzzles_pipeline`, whose parameter list has neither,
so the non-streaming path would raise a `TypeError` at the call. -/
theorem claim_C10 :
    "process_all_puzzles_by_theme_streaming" ∈ mainImportsFromPuzzles ∧
    "process_all_puzzles_by_theme_streaming" ∉ puzzlesModuleDefs ∧
    "min_popularity" ∈ mainPipelineCallKwargs ∧
    "min_plays" ∈ mainPipelineCallKwargs ∧
    "min_popularity" ∉ buildPuzzlesPipelineParams ∧
    "min_plays" ∉ buildPuzzlesPipelineParams := by
  decide
